import Mathlib

/-!
Verification development for the `v8-cpuprofile` trace library: a shallow
embedding of the Rust sources (`src/lib.rs`, `src/de/visitors.rs`,
`src/de/util.rs`, `src/ser/mod.rs`) together with theorems about the decoder,
the chunk-closure engine and the serializer.

Modelling conventions:
* `Duration` values only ever enter and leave the library as whole microsecond
  counts (`Duration::from_micros` / `as_micros`), so they are embedded as the
  `Nat` of microseconds.
* Opaque `RawValue` payloads (`callFrame`, `deoptReason`, `positionTicks`) are
  byte spans copied through verbatim; they are embedded as `String`.
* `u64`/`u32`/`i32` wire integers are embedded as `Nat`/`Int`; no arithmetic in
  the library can overflow them other than the cases modelled explicitly below.
* A Rust panic (failed `HashMap`/`Vec` index, `Duration` under/overflow,
  division by zero, `slice::chunks(0)`) is modelled as `none` / `.crash` of an
  `Option`-shaped result.
* `hashbrown::HashMap<u64, usize>` with last-insert-wins semantics is embedded
  as an association list onto which new entries are prepended, queried by first
  match.
-/

namespace V8

/-- One profiler observation (`struct Sample`): `node_id` is a foreign key into
the node set, `ts` the absolute timestamp in microseconds derived during
decode. -/
structure Sample where
  node_id : Nat
  ts : Nat
deriving DecidableEq, Repr, Inhabited

/-- Mirrors `Ord for Sample`: samples are compared solely by `ts`; `node_id` takes no
part in comparison or equality. -/
def Sample.le (a b : Sample) : Prop := a.ts ≤ b.ts

instance : DecidableRel Sample.le := fun a b => Nat.decLe a.ts b.ts

instance : IsTotal Sample Sample.le := ⟨fun a b => Nat.le_total a.ts b.ts⟩

instance : IsTrans Sample Sample.le := ⟨fun _ _ _ h h' => Nat.le_trans h h'⟩

/-- Embeds `struct Node`: `parent_id` is derived at decode time, never on the wire. -/
structure Node where
  id : Nat
  parent_id : Option Nat
  call_frame : String
  hit_count : Nat
  children : Option (List Nat)
  deopt_reason : Option String
  position_ticks : Option String
deriving DecidableEq, Repr, Inhabited

/-- Embeds `struct Profile`: node sequence in document order, times in microseconds,
samples sorted by `ts` after decode, and the id → position index. -/
structure Profile where
  nodes : List Node
  start_time : Nat
  end_time : Nat
  samples : List Sample
  node_index : List (Nat × Nat)
deriving DecidableEq, Repr, Inhabited

/-- Lookup in the embedded `HashMap<u64, usize>`: first match of a prepend-on-
insert association list, i.e. the most recently inserted binding wins. -/
def indexLookup (ix : List (Nat × Nat)) (id : Nat) : Option Nat :=
  (ix.find? (fun e => e.1 == id)).map (fun e => e.2)

/-- Embeds `impl Index<u64> for Profile`: `&self.nodes[self.node_index[&node_id]]`.
`none` models the panic when `node_id` is absent from `node_index` or the
stored position is out of bounds. -/
def Profile.lookupNode (p : Profile) (id : Nat) : Option Node :=
  match indexLookup p.node_index id with
  | none => none
  | some pos => p.nodes[pos]?

/-- Ancestor relation: `a` is a (transitive) ancestor of `c`: following `parent_id` links from `c`
through successful `Profile` index lookups reaches `a`. -/
inductive Anc (p : Profile) : Nat → Nat → Prop
  | parent {c n a} : p.lookupNode c = some n → n.parent_id = some a → Anc p a c
  | step {c n b a} : p.lookupNode c = some n → n.parent_id = some b → Anc p a b → Anc p a c

/-- The node at id `x` (when it resolves) has its parent inside `inc`. -/
def ParentClosedAt (p : Profile) (inc : Finset Nat) (x : Nat) : Prop :=
  ∀ n, p.lookupNode x = some n → ∀ a, n.parent_id = some a → a ∈ inc

/-! Chunk engine (`ProfileChunk::new`, `Profile::chunks`) -/

/-- Every node id `ProfileChunk::new` can ever hold in `included`: sample node
ids are membership-checked before insertion, and each id inserted during the
parent walk is the `parent_id` of some node.  Used only to size the walk's
fuel. -/
def Profile.idUniverse (p : Profile) : Finset Nat :=
  (p.nodes.map Node.id).toFinset ∪ (p.nodes.filterMap Node.parent_id).toFinset

/-- The `for parent_id in profile.parent_ids_iter(node_id)` loop of
`ProfileChunk::new`, early exit included: look up the current node, stop when
it has no parent, stop when `included.insert(parent_id)` finds the parent
already present, otherwise insert and ascend.  `none` models the index panic on
a dangling id.  The fuel only bounds the recursion; callers pass one more than
the number of ids still insertable, which is proven sufficient below. -/
def parentWalk (p : Profile) : Nat → Finset Nat → Nat → Option (Finset Nat)
  | 0, _, _ => none
  | fuel + 1, included, cur =>
    match p.lookupNode cur with
    | none => none
    | some node =>
      match node.parent_id with
      | none => some included
      | some pid =>
        if pid ∈ included then some included
        else parentWalk p fuel (insert pid included) pid

/-- One iteration of the sample loop in `ProfileChunk::new`: skip a sample
whose node id is already included (`included.insert` returned `false`),
otherwise insert it and walk its ancestors. -/
def includeSample (p : Profile) (included : Finset Nat) (nid : Nat) : Option (Finset Nat) :=
  if nid ∈ included then some included
  else parentWalk p ((p.idUniverse \ insert nid included).card + 1) (insert nid included) nid

/-- The full sample loop of `ProfileChunk::new`, building `included` from the
chunk's sample slice. -/
def buildIncluded (p : Profile) : Finset Nat → List Sample → Option (Finset Nat)
  | included, [] => some included
  | included, s :: rest =>
    match includeSample p included s.node_id with
    | none => none
    | some included' => buildIncluded p included' rest

/-- Embeds `struct ProfileChunk`: a borrowed view of the parent profile, a contiguous
sample slice, and the computed included-node set. -/
structure ProfileChunk where
  profile : Profile
  samples : List Sample
  included : Finset Nat
deriving DecidableEq

/-- Embeds `ProfileChunk::new`; `none` models the index panic during the ancestor
walk. -/
def ProfileChunk.new (p : Profile) (samples : List Sample) : Option ProfileChunk :=
  (buildIncluded p ∅ samples).map (fun inc => ⟨p, samples, inc⟩)

/-- Embeds `fn div_ceil(n, d) = (n + d - 1) / d`. `none` models the panic when
`d = 0`: division by zero for `n > 0`, `usize` underflow of `0 + 0 - 1` for
`n = 0`. -/
def div_ceil (n d : Nat) : Option Nat :=
  if d = 0 then none else some ((n + d - 1) / d)

/-- Chunking a slice into runs of `k`, peeling one chunk per step.
`slice::chunks(k)` yields exactly `⌈len / k⌉` chunks, which is the step count
the callers below pass in; the guard on `[]` makes any surplus steps yield
nothing. -/
def chunksGo (k : Nat) : Nat → List Sample → List (List Sample)
  | 0, _ => []
  | _ + 1, [] => []
  | m + 1, x :: xs => ((x :: xs).take k) :: chunksGo k m ((x :: xs).drop k)

/-- Embeds `slice::chunks(k)` for `k > 0` as a list of slices. -/
def sliceChunks (l : List Sample) (k : Nat) : List (List Sample) :=
  chunksGo k ((l.length + k - 1) / k) l

/-- The sample slices produced by `Profile::chunks(chunk_num)`:
`chunk_size = div_ceil(samples.len(), chunk_num)` followed by
`samples.chunks(chunk_size)`.  `none` models the two panics: `chunk_num = 0`
(division by zero in `div_ceil`) and `chunk_size = 0` (`slice::chunks` panics
on a zero chunk size, which happens exactly when the profile has no
samples). -/
def Profile.chunkSlices (p : Profile) (chunk_num : Nat) : Option (List (List Sample)) :=
  match div_ceil p.samples.length chunk_num with
  | none => none
  | some chunk_size =>
    if chunk_size = 0 then none
    else some (sliceChunks p.samples chunk_size)

/-- Driving the `ProfileChunks` iterator to completion: `ProfileChunk::new` on
each successive slice, crashing when any single construction crashes. -/
def chunksFrom (p : Profile) : List (List Sample) → Option (List ProfileChunk)
  | [] => some []
  | sl :: rest =>
    match ProfileChunk.new p sl with
    | none => none
    | some c =>
      match chunksFrom p rest with
      | none => none
      | some cs => some (c :: cs)

/-- Embeds `Profile::chunks(chunk_num)`, collected: the chunk views over the
successive sample slices. -/
def Profile.chunks (p : Profile) (chunk_num : Nat) : Option (List ProfileChunk) :=
  match p.chunkSlices chunk_num with
  | none => none
  | some sls => chunksFrom p sls

/-! Serializer (`ser/mod.rs`) -/

/-- The wire form of one serialized node object, fields in emission order:
`id`, `callFrame`, `hitCount` always, then `children`, `deoptReason`,
`positionTicks` only when present. -/
structure WireNode where
  id : Nat
  callFrame : String
  hitCount : Nat
  children : Option (List Nat)
  deoptReason : Option String
  positionTicks : Option String
deriving DecidableEq, Repr, Inhabited

/-- The wire form of a serialized profile document, fields in emission order:
`nodes`, `startTime`, `endTime`, `samples`, `timeDeltas`. -/
structure WireDoc where
  nodes : List WireNode
  startTime : Nat
  endTime : Nat
  samples : List Nat
  timeDeltas : List Int
deriving DecidableEq, Repr, Inhabited

/-- Wire form of `serialize_node` applied to a whole `Node` (`impl Serialize for Node`):
every field emitted verbatim, the derived `parent_id` never emitted. -/
def serializeNode (n : Node) : WireNode :=
  ⟨n.id, n.call_frame, n.hit_count, n.children, n.deopt_reason, n.position_ticks⟩

/-- The re-derived `timeDeltas` of `serialize_profile`: `last = 0`, each delta
is `ts - last` on unsigned microseconds.  `none` models the unsigned-subtraction
overflow panic when a sample's `ts` is below its predecessor's. -/
def timeDeltasOf : Nat → List Sample → Option (List Int)
  | _, [] => some []
  | last, s :: rest =>
    if s.ts < last then none
    else
      match timeDeltasOf s.ts rest with
      | none => none
      | some ds => some (((s.ts - last : Nat) : Int) :: ds)

/-- Embeds `serialize_profile`: fixed field order `nodes`, `startTime`, `endTime`,
`samples` (node ids in sequence order), re-derived `timeDeltas`. -/
def serializeProfileParts (nodes : List WireNode) (startTime endTime : Nat)
    (samples : List Sample) : Option WireDoc :=
  match timeDeltasOf 0 samples with
  | none => none
  | some ds => some ⟨nodes, startTime, endTime, samples.map Sample.node_id, ds⟩

/-- Embeds `impl Serialize for Profile`. -/
def Profile.serialize (p : Profile) : Option WireDoc :=
  serializeProfileParts (p.nodes.map serializeNode) p.start_time p.end_time p.samples

/-- Embeds `FilteredNode::children`: the node's children filtered to the included
set, preserving order. -/
def filteredChildren (included : Finset Nat) (children : List Nat) : List Nat :=
  children.filter (fun id => decide (id ∈ included))

/-- Embeds `impl Serialize for FilteredNode`: like `serialize_node` but with the
children list filtered to the chunk's included set (a present-but-filtered
list stays present, possibly empty). -/
def serializeFilteredNode (included : Finset Nat) (n : Node) : WireNode :=
  { serializeNode n with children := n.children.map (filteredChildren included) }

/-- Embeds `ProfileChunk::nodes()`: the profile's node sequence in original order,
filtered to ids present in `included`, each node emitted with filtered
children. -/
def ProfileChunk.nodesOut (c : ProfileChunk) : List WireNode :=
  (c.profile.nodes.filter (fun n => decide (n.id ∈ c.included))).map
    (serializeFilteredNode c.included)

/-- Embeds `impl Serialize for ProfileChunk`: `serialize_profile` over the filtered
node listing, the parent profile's `start_time` and `end_time`, and the chunk's
own sample slice. -/
def ProfileChunk.serialize (c : ProfileChunk) : Option WireDoc :=
  serializeProfileParts c.nodesOut c.profile.start_time c.profile.end_time c.samples

/-- Compact `serde_json` rendering of one node object. -/
def renderNode (n : WireNode) : String :=
  "\x7b\"id\":" ++ toString n.id ++ ",\"callFrame\":" ++ n.callFrame ++
    ",\"hitCount\":" ++ toString n.hitCount ++
    (match n.children with
     | none => ""
     | some cs => ",\"children\":[" ++ String.intercalate "," (cs.map toString) ++ "]") ++
    (match n.deoptReason with
     | none => ""
     | some v => ",\"deoptReason\":" ++ v) ++
    (match n.positionTicks with
     | none => ""
     | some v => ",\"positionTicks\":" ++ v) ++ "\x7d"

/-- Compact `serde_json` rendering of a whole document: the byte string the
encoder writes for the given wire value. -/
def renderDoc (d : WireDoc) : String :=
  "\x7b\"nodes\":[" ++ String.intercalate "," (d.nodes.map renderNode) ++ "]" ++
    ",\"startTime\":" ++ toString d.startTime ++
    ",\"endTime\":" ++ toString d.endTime ++
    ",\"samples\":[" ++ String.intercalate "," (d.samples.map toString) ++ "]" ++
    ",\"timeDeltas\":[" ++ String.intercalate "," (d.timeDeltas.map toString) ++ "]" ++
    "\x7d"

/-! Decoder (`de/visitors.rs`, `de/util.rs`) -/

/-- One key/value entry of a node JSON object, as `NodeVisitor::visit_map`
dispatches on it; `unknownKey` is any key outside the closed schema. -/
inductive NodeField
  | id (v : Nat)
  | callFrame (v : String)
  | hitCount (v : Nat)
  | children (v : List Nat)
  | deoptReason (v : String)
  | positionTicks (v : String)
  | unknownKey (name : String)
deriving DecidableEq, Repr

/-- One key/value entry of the top-level profile JSON object, as
`ProfileVisitor::visit_map` dispatches on it. -/
inductive ProfileField
  | nodes (v : List (List NodeField))
  | startTime (v : Nat)
  | endTime (v : Nat)
  | samples (v : List Nat)
  | timeDeltas (v : List Int)
  | unknownKey (name : String)
deriving DecidableEq, Repr

/-- The structured decode errors raised by the visitors:
`serde::de::Error::missing_field` / `unknown_field`, each naming the field. -/
inductive DecodeError
  | missingField (name : String)
  | unknownField (name : String)
deriving DecidableEq, Repr

/-- Outcome of a whole-document decode: a `Profile`, a structured error, or a
crash (panic) in non-error code paths. -/
inductive DecodeResult
  | ok (p : Profile)
  | err (e : DecodeError)
  | crash
deriving DecidableEq, Repr

/-- The six field accumulators of `NodeVisitor::visit_map`. -/
structure NodeAcc where
  id : Option Nat := none
  call_frame : Option String := none
  hit_count : Option Nat := none
  children : Option (List Nat) := none
  deopt_reason : Option String := none
  position_ticks : Option String := none
deriving DecidableEq, Repr, Inhabited

/-- The key loop of `NodeVisitor::visit_map`: each known key overwrites its
accumulator; the first unknown key aborts with `unknown_field`. -/
def nodeFieldsLoop (acc : NodeAcc) : List NodeField → Except DecodeError NodeAcc
  | [] => .ok acc
  | f :: rest =>
    match f with
    | .id v => nodeFieldsLoop { acc with id := some v } rest
    | .callFrame v => nodeFieldsLoop { acc with call_frame := some v } rest
    | .hitCount v => nodeFieldsLoop { acc with hit_count := some v } rest
    | .children v => nodeFieldsLoop { acc with children := some v } rest
    | .deoptReason v => nodeFieldsLoop { acc with deopt_reason := some v } rest
    | .positionTicks v => nodeFieldsLoop { acc with position_ticks := some v } rest
    | .unknownKey name => .error (.unknownField name)

/-- Embeds `NodeVisitor::visit_map`: run the key loop, then `check_missing!` on `id`,
`callFrame` and `hitCount` in that order; `parent_id` starts out `None`. -/
def decodeNode (fields : List NodeField) : Except DecodeError Node :=
  match nodeFieldsLoop {} fields with
  | .error e => .error e
  | .ok acc =>
    match acc.id with
    | none => .error (.missingField "id")
    | some id =>
      match acc.call_frame with
      | none => .error (.missingField "callFrame")
      | some cf =>
        match acc.hit_count with
        | none => .error (.missingField "hitCount")
        | some hc => .ok ⟨id, none, cf, hc, acc.children, acc.deopt_reason, acc.position_ticks⟩

/-- The mutable decode state of `ProfileVisitor::visit_map`. -/
structure DecState where
  node_index : List (Nat × Nat) := []
  parent_ids : List (Nat × Nat) := []
  nodes : Option (List Node) := none
  start_time : Option Nat := none
  end_time : Option Nat := none
  samples : List Sample := []
  has_samples : Bool := false
  has_time_deltas : Bool := false
  current : Nat := 0
deriving DecidableEq, Repr, Inhabited

/-- Embeds `offset_duration`: apply a signed microsecond offset to the running
accumulator.  `none` models the `Duration` subtraction panic when the offset
would drive the accumulator below zero. -/
def offset_duration (duration : Nat) (offset_micros : Int) : Option Nat :=
  if (duration : Int) + offset_micros < 0 then none
  else some ((duration : Int) + offset_micros).toNat

/-- The (parent id, child id) pairs a node queues for the second pass. -/
def childPairs (n : Node) : List (Nat × Nat) :=
  match n.children with
  | none => []
  | some cs => cs.map (fun child_id => (n.id, child_id))

/-- The `"nodes"` sequence callback: decode each node in document order,
record `(node.id, index)` into `node_index`, queue its child pairs, and push
the node; the first node decode error aborts. -/
def nodesSeqPass (st : DecState) (idx : Nat) : List (List NodeField) → Except DecodeError DecState
  | [] => .ok st
  | nf :: rest =>
    match decodeNode nf with
    | .error e => .error e
    | .ok node =>
      nodesSeqPass
        { st with
          node_index := (node.id, idx) :: st.node_index
          parent_ids := st.parent_ids ++ childPairs node
          nodes := some (st.nodes.getD [] ++ [node]) }
        (idx + 1) rest

/-- The `"samples"` sequence callback: the k-th element sets the `node_id` of
the k-th buffered sample, growing the buffer on demand (`Vec::insert` at
`index = len`, the only reachable out-of-range case starting from index 0, is
a push). -/
def samplesSeqPass (buf : List Sample) (idx : Nat) : List Nat → List Sample
  | [] => buf
  | node_id :: rest =>
    match buf[idx]? with
    | some s => samplesSeqPass (buf.set idx { s with node_id := node_id }) (idx + 1) rest
    | none => samplesSeqPass (buf ++ [⟨node_id, 0⟩]) (idx + 1) rest

/-- The `"timeDeltas"` sequence callback: fold each delta into the running
accumulator via `offset_duration` and write the accumulated `ts` into the k-th
buffered sample, growing the buffer on demand.  `none` models the accumulator
underflow panic. -/
def deltasSeqPass (buf : List Sample) (current : Nat) (idx : Nat) :
    List Int → Option (List Sample × Nat)
  | [] => some (buf, current)
  | delta :: rest =>
    match offset_duration current delta with
    | none => none
    | some cur =>
      match buf[idx]? with
      | some s => deltasSeqPass (buf.set idx { s with ts := cur }) cur (idx + 1) rest
      | none => deltasSeqPass (buf ++ [⟨0, cur⟩]) cur (idx + 1) rest

/-- The key loop of `ProfileVisitor::visit_map`.  A `"nodes"` key resets the
node vector (`Option::insert(Vec::new())`) but keeps `node_index` and
`parent_ids` accumulating; sequence indices restart at 0 per key occurrence;
the first unknown key aborts with `unknown_field`; `none` models a panic inside
the `timeDeltas` callback. -/
def profileFieldsLoop (st : DecState) : List ProfileField → Option (Except DecodeError DecState)
  | [] => some (.ok st)
  | f :: rest =>
    match f with
    | .nodes nfs =>
      match nodesSeqPass { st with nodes := some [] } 0 nfs with
      | .error e => some (.error e)
      | .ok st' => profileFieldsLoop st' rest
    | .startTime v => profileFieldsLoop { st with start_time := some v } rest
    | .endTime v => profileFieldsLoop { st with end_time := some v } rest
    | .samples ids =>
      profileFieldsLoop
        { st with has_samples := true, samples := samplesSeqPass st.samples 0 ids } rest
    | .timeDeltas ds =>
      match deltasSeqPass st.samples st.current 0 ds with
      | none => none
      | some (buf, cur) =>
        profileFieldsLoop
          { st with has_time_deltas := true, samples := buf, current := cur } rest
    | .unknownKey name => some (.error (.unknownField name))

/-- The second pass over the queued `(parent_id, node_id)` pairs:
`nodes[node_index[node_id]].parent_id = Some(parent_id)`.  `none` models the
`HashMap` / `Vec` index panic on a dangling child id. -/
def resolveParents (nodes : List Node) (node_index : List (Nat × Nat)) :
    List (Nat × Nat) → Option (List Node)
  | [] => some nodes
  | (parent_id, node_id) :: rest =>
    match indexLookup node_index node_id with
    | none => none
    | some pos =>
      match nodes[pos]? with
      | none => none
      | some n => resolveParents (nodes.set pos { n with parent_id := some parent_id }) node_index rest

/-- Embeds `ProfileVisitor::visit_map` end-to-end over a field entry list: the key
loop, then `check_missing!` on `nodes`, `startTime`, `endTime`, the parent
resolution pass, the `samples` / `timeDeltas` presence checks, and the final
stable sort of the sample buffer by `ts` (Rust's stable `Vec::sort` under the
`ts`-only comparator; `insertionSort` is the same stable sort). -/
def decodeProfile (fields : List ProfileField) : DecodeResult :=
  match profileFieldsLoop {} fields with
  | none => .crash
  | some (.error e) => .err e
  | some (.ok st) =>
    match st.nodes with
    | none => .err (.missingField "nodes")
    | some nodes =>
      match st.start_time with
      | none => .err (.missingField "startTime")
      | some start_time =>
        match st.end_time with
        | none => .err (.missingField "endTime")
        | some end_time =>
          match resolveParents nodes st.node_index st.parent_ids with
          | none => .crash
          | some nodes' =>
            if st.has_samples = false then .err (.missingField "samples")
            else if st.has_time_deltas = false then .err (.missingField "timeDeltas")
            else
              .ok ⟨nodes', start_time, end_time,
                List.insertionSort Sample.le st.samples, st.node_index⟩

/-! Canonically-encoded documents -/

/-- The field entries of one canonically-encoded node object: keys exactly
once, in the serializer's emission order, optional fields present exactly when
carried. -/
def nodeToFields (w : WireNode) : List NodeField :=
  [.id w.id, .callFrame w.callFrame, .hitCount w.hitCount] ++
    (match w.children with | none => [] | some cs => [.children cs]) ++
    (match w.deoptReason with | none => [] | some v => [.deoptReason v]) ++
    (match w.positionTicks with | none => [] | some v => [.positionTicks v])

/-- The field entries of a canonically-encoded document: the five required
keys exactly once, in the serializer's emission order. -/
def toFields (d : WireDoc) : List ProfileField :=
  [.nodes (d.nodes.map nodeToFields), .startTime d.startTime, .endTime d.endTime,
    .samples d.samples, .timeDeltas d.timeDeltas]

/-- The ids of a document's node objects, in document order. -/
def nodeIds (d : WireDoc) : List Nat := d.nodes.map WireNode.id

/-- A wire node's children ids (empty when the field is absent). -/
def childIds (w : WireNode) : List Nat := w.children.getD []

/-- The running `timeDeltas` accumulation: the pre-sort `ts` of each sample in
`samples` document order; `none` when some step drives the accumulator
negative. -/
def accumTs (current : Nat) : List Int → Option (List Nat)
  | [] => some []
  | d :: rest =>
    match offset_duration current d with
    | none => none
    | some cur =>
      match accumTs cur rest with
      | none => none
      | some ts => some (cur :: ts)

/-- Conformance of a canonically-encoded document, beyond the canonical field
order built into `toFields`: `samples` and `timeDeltas` have equal length, all
deltas are non-negative (the encoder can only ever emit non-negative deltas),
and every child id names a node object of the document. -/
def Canonical (d : WireDoc) : Prop :=
  d.samples.length = d.timeDeltas.length ∧
    (∀ δ ∈ d.timeDeltas, 0 ≤ δ) ∧
    ∀ w ∈ d.nodes, ∀ c ∈ childIds w, c ∈ nodeIds d

instance (d : WireDoc) : Decidable (Canonical d) := by
  unfold Canonical
  infer_instance

/-! Characterization helpers for canonical decodes -/

/-- The `Node` a canonical node object decodes to: every wire field verbatim,
`parent_id` initialized to `none`. -/
def nodeAsDecoded (w : WireNode) : Node :=
  ⟨w.id, none, w.callFrame, w.hitCount, w.children, w.deoptReason, w.positionTicks⟩

/-- The `node_index` contents after the `"nodes"` pass starting at `idx`:
each `(id, position)` binding prepended in decode order, so later nodes sit
closer to the front. -/
def builtIndexFrom (idx : Nat) : List WireNode → List (Nat × Nat)
  | [] => []
  | w :: rest => builtIndexFrom (idx + 1) rest ++ [(w.id, idx)]

/-- The `(parent id, child id)` queue contents after the `"nodes"` pass, in
queue order. -/
def pairsFrom : List WireNode → List (Nat × Nat)
  | [] => []
  | w :: rest => (childIds w).map (fun c => (w.id, c)) ++ pairsFrom rest

/-- The parent id the resolution pass leaves on the node at position `j`
(`none` when no queued pair targets `j`; the last targeting pair wins). -/
def lastAssigned (ix : List (Nat × Nat)) (j : Nat) : List (Nat × Nat) → Option Nat
  | [] => none
  | (a, c) :: rest =>
    match lastAssigned ix j rest with
    | some a' => some a'
    | none => if indexLookup ix c = some j then some a else none

/-- Whether a node field entry is the `id` key. -/
def isIdKey : NodeField → Bool
  | .id _ => true
  | _ => false

/-- Whether a node field entry is the `callFrame` key. -/
def isCallFrameKey : NodeField → Bool
  | .callFrame _ => true
  | _ => false

/-- Whether a node field entry is the `hitCount` key. -/
def isHitCountKey : NodeField → Bool
  | .hitCount _ => true
  | _ => false

/-- Whether a node field entry is one of the six closed-schema keys. -/
def isKnownKey : NodeField → Bool
  | .unknownKey _ => false
  | _ => true

/-! Concrete example values (used by the witness theorems) -/

/-- The spec's concrete scenario: root 1 with child 2, node 2 with child 3,
samples `[3, 2, 1]`, deltas `[100, 50, 25]`. -/
def exampleDoc : WireDoc :=
  { nodes := [
      ⟨1, "\x7b\x7d", 0, some [2], none, none⟩,
      ⟨2, "\x7b\x7d", 1, some [3], none, none⟩,
      ⟨3, "\x7b\x7d", 2, none, none, none⟩],
    startTime := 1000, endTime := 2000,
    samples := [3, 2, 1],
    timeDeltas := [100, 50, 25] }

/-- The profile `exampleDoc` decodes to. -/
def exampleProfile : Profile :=
  match decodeProfile (toFields exampleDoc) with
  | .ok p => p
  | _ => default

/-- The chunks of `exampleProfile` at `chunk_num = 2`. -/
def exampleChunks : List ProfileChunk :=
  (exampleProfile.chunks 2).getD []

/-- The first chunk of `exampleChunks`. -/
def exampleChunk : ProfileChunk :=
  exampleChunks.getD 0 ⟨default, [], ∅⟩

/-- The first sample of `exampleChunk`. -/
def exampleSample : Sample :=
  exampleChunk.samples.getD 0 default

/-- The sample slices of `exampleProfile` at `chunk_num = 2`. -/
def exampleSlices : List (List Sample) :=
  (exampleProfile.chunkSlices 2).getD []

/-- Variant of `exampleDoc` with every sample referencing the nonexistent node id 9. -/
def danglingDoc : WireDoc :=
  { exampleDoc with samples := [9, 9, 9] }

/-- The profile `danglingDoc` decodes to (decode does not validate sample
references). -/
def danglingProfile : Profile :=
  match decodeProfile (toFields danglingDoc) with
  | .ok p => p
  | _ => default

/-! Slicing lemmas (`slice::chunks`, `div_ceil`) -/

theorem chunksGo_nil (k : Nat) : ∀ m, chunksGo k m [] = []
  | 0 => rfl
  | _ + 1 => rfl

theorem chunksGo_flatten (k : Nat) :
    ∀ (m : Nat) (l : List Sample), l.length ≤ m * k → (chunksGo k m l).flatten = l := by
  intro m
  induction m with
  | zero =>
    intro l hl
    have hlen : l.length = 0 := by simpa using hl
    have : l = [] := List.eq_nil_of_length_eq_zero hlen
    subst this; rfl
  | succ m ih =>
    intro l hl
    match l with
    | [] => rfl
    | x :: xs =>
      have hlen := List.length_drop k (x :: xs)
      have hmul : (m + 1) * k = m * k + k := by ring
      have hdrop : ((x :: xs).drop k).length ≤ m * k := by omega
      calc (chunksGo k (m + 1) (x :: xs)).flatten
          = (x :: xs).take k ++ (chunksGo k m ((x :: xs).drop k)).flatten := rfl
        _ = (x :: xs).take k ++ (x :: xs).drop k := by rw [ih _ hdrop]
        _ = x :: xs := List.take_append_drop k (x :: xs)

theorem chunksGo_length_le (k : Nat) :
    ∀ (m : Nat) (l : List Sample), (chunksGo k m l).length ≤ m := by
  intro m
  induction m with
  | zero => intro l; simp [chunksGo]
  | succ m ih =>
    intro l
    match l with
    | [] => simp [chunksGo]
    | x :: xs =>
      have := ih ((x :: xs).drop k)
      simp only [chunksGo, List.length_cons]
      omega

theorem chunksGo_length_pos (k : Nat) {m : Nat} {l : List Sample}
    (hm : 0 < m) (hl : l ≠ []) : 0 < (chunksGo k m l).length := by
  match m, l with
  | 0, _ => omega
  | _ + 1, [] => exact absurd rfl hl
  | m + 1, x :: xs => simp [chunksGo]

theorem chunksGo_chunk_le (k : Nat) :
    ∀ (m : Nat) (l : List Sample), ∀ c ∈ chunksGo k m l, c.length ≤ k := by
  intro m
  induction m with
  | zero => intro l c hc; simp [chunksGo] at hc
  | succ m ih =>
    intro l c hc
    match l with
    | [] => simp [chunksGo] at hc
    | x :: xs =>
      simp only [chunksGo, List.mem_cons] at hc
      rcases hc with rfl | hc
      · have := List.length_take k (x :: xs)
        omega
      · exact ih _ c hc

theorem chunksGo_chunk_ne_nil (k : Nat) (hk : 0 < k) :
    ∀ (m : Nat) (l : List Sample), ∀ c ∈ chunksGo k m l, c ≠ [] := by
  intro m
  induction m with
  | zero => intro l c hc; simp [chunksGo] at hc
  | succ m ih =>
    intro l c hc
    match l with
    | [] => simp [chunksGo] at hc
    | x :: xs =>
      simp only [chunksGo, List.mem_cons] at hc
      rcases hc with rfl | hc
      · have hlen := List.length_take k (x :: xs)
        have : 0 < ((x :: xs).take k).length := by
          simp only [List.length_cons] at hlen ⊢
          omega
        exact List.ne_nil_of_length_pos this
      · exact ih _ c hc

theorem chunksGo_dropLast (k : Nat) :
    ∀ (m : Nat) (l : List Sample), ∀ c ∈ (chunksGo k m l).dropLast, c.length = k := by
  intro m
  induction m with
  | zero => intro l c hc; simp [chunksGo] at hc
  | succ m ih =>
    intro l c hc
    match l with
    | [] => simp [chunksGo] at hc
    | x :: xs =>
      simp only [chunksGo] at hc
      cases hrest : chunksGo k m ((x :: xs).drop k) with
      | nil => rw [hrest] at hc; simp at hc
      | cons r rs =>
        rw [hrest] at hc
        rw [List.dropLast_cons₂] at hc
        rcases List.mem_cons.mp hc with rfl | hc'
        · have hdrop_ne : (x :: xs).drop k ≠ [] := by
            intro hnil
            rw [hnil, chunksGo_nil] at hrest
            exact List.cons_ne_nil r rs hrest.symm
          have hklt : k < (x :: xs).length := by
            by_contra hle
            exact hdrop_ne (List.drop_eq_nil_of_le (by omega))
          have := List.length_take k (x :: xs)
          omega
        · exact ih _ c (hrest ▸ hc')

theorem le_ceil_mul (len k : Nat) (hk : 0 < k) : len ≤ ((len + k - 1) / k) * k := by
  have hmod := Nat.div_add_mod (len + k - 1) k
  have hmlt : (len + k - 1) % k < k := Nat.mod_lt _ hk
  rw [Nat.mul_comm]
  generalize k * ((len + k - 1) / k) = m at hmod ⊢
  omega

theorem ceil_pos {len n : Nat} (hlen : 0 < len) (hn : 0 < n) : 0 < (len + n - 1) / n := by
  have h : 1 ≤ (len + n - 1) / n := (Nat.le_div_iff_mul_le hn).mpr (by omega)
  omega

theorem ceil_le_bound {len n k : Nat} (hlen : 0 < len) (hn : 0 < n)
    (hk : k = (len + n - 1) / n) : (len + k - 1) / k ≤ n := by
  have hkpos : 0 < k := hk ▸ ceil_pos hlen hn
  have hlenle : len ≤ k * n := by
    have := le_ceil_mul len n hn
    calc len ≤ ((len + n - 1) / n) * n := this
      _ = k * n := by rw [hk]
  rw [Nat.div_le_iff_le_mul_add_pred hkpos]
  generalize k * n = m at hlenle ⊢
  omega

theorem chunkSlices_eq {p : Profile} {n : Nat} {sls : List (List Sample)}
    (h : p.chunkSlices n = some sls) :
    0 < n ∧ 0 < (p.samples.length + n - 1) / n ∧
      sls = sliceChunks p.samples ((p.samples.length + n - 1) / n) := by
  unfold Profile.chunkSlices div_ceil at h
  by_cases hn : n = 0
  · simp [hn] at h
  · simp only [hn, if_false] at h
    by_cases hk : (p.samples.length + n - 1) / n = 0
    · rw [hk] at h; simp at h
    · rw [if_neg hk] at h
      refine ⟨Nat.pos_of_ne_zero hn, Nat.pos_of_ne_zero hk, ?_⟩
      exact (Option.some_inj.mp h).symm

theorem chunksFrom_spec (p : Profile) :
    ∀ (sls : List (List Sample)) (cs : List ProfileChunk), chunksFrom p sls = some cs →
      cs.map ProfileChunk.samples = sls ∧
        ∀ c ∈ cs, c.profile = p ∧ buildIncluded p ∅ c.samples = some c.included := by
  intro sls
  induction sls with
  | nil =>
    intro cs h
    simp only [chunksFrom, Option.some_inj] at h
    subst h
    exact ⟨rfl, by simp⟩
  | cons sl rest ih =>
    intro cs h
    simp only [chunksFrom] at h
    cases hnew : ProfileChunk.new p sl with
    | none => rw [hnew] at h; exact absurd h (by simp)
    | some c0 =>
      rw [hnew] at h
      cases hrest : chunksFrom p rest with
      | none => rw [hrest] at h; exact absurd h (by simp)
      | some cs' =>
        rw [hrest] at h
        simp only [Option.some_inj] at h
        subst h
        obtain ⟨hmap, hall⟩ := ih cs' hrest
        unfold ProfileChunk.new at hnew
        cases hbuild : buildIncluded p ∅ sl with
        | none => rw [hbuild] at hnew; exact absurd hnew (by simp)
        | some inc =>
          rw [hbuild] at hnew
          simp only [Option.map_some', Option.some_inj] at hnew
          subst hnew
          refine ⟨by simp [hmap], ?_⟩
          intro c hc
          rcases List.mem_cons.mp hc with rfl | hc'
          · exact ⟨rfl, hbuild⟩
          · exact hall c hc'

/-- Claim C3: for a profile with at least one sample and `n ≥ 1`, the sample
slices produced by `chunk(profile, n)`, concatenated in production order,
equal the profile's sorted sample sequence exactly; each chunk has size
`⌈total / n⌉` except possibly a smaller final one, no chunk is empty, and the
`ProfileChunk` views carry exactly these slices. -/
theorem chunk_partition (p : Profile) (n : Nat) (hn : 1 ≤ n) (hs : p.samples ≠ [])
    (sls : List (List Sample)) (h : p.chunkSlices n = some sls) :
    sls.flatten = p.samples ∧
      (∀ c ∈ sls, c ≠ [] ∧ c.length ≤ (p.samples.length + n - 1) / n) ∧
      (∀ c ∈ sls.dropLast, c.length = (p.samples.length + n - 1) / n) ∧
      ∀ cs, p.chunks n = some cs → cs.map ProfileChunk.samples = sls := by
  obtain ⟨hnpos, hkpos, hsls⟩ := chunkSlices_eq h
  set k := (p.samples.length + n - 1) / n with hkdef
  subst hsls
  unfold sliceChunks
  refine ⟨?_, ?_, ?_, ?_⟩
  · exact chunksGo_flatten k _ p.samples (le_ceil_mul p.samples.length k hkpos)
  · intro c hc
    exact ⟨chunksGo_chunk_ne_nil k hkpos _ _ c hc, chunksGo_chunk_le k _ _ c hc⟩
  · intro c hc
    exact chunksGo_dropLast k _ _ c hc
  · intro cs hcs
    unfold Profile.chunks at hcs
    rw [h] at hcs
    exact (chunksFrom_spec p _ cs hcs).1

/-- Witness for `chunk_partition` at the spec's concrete scenario. -/
theorem chunk_partition_witness :
    exampleSlices.flatten = exampleProfile.samples ∧
      (∀ c ∈ exampleSlices, c ≠ [] ∧
        c.length ≤ (exampleProfile.samples.length + 2 - 1) / 2) ∧
      (∀ c ∈ exampleSlices.dropLast,
        c.length = (exampleProfile.samples.length + 2 - 1) / 2) ∧
      ∀ cs, exampleProfile.chunks 2 = some cs →
        cs.map ProfileChunk.samples = exampleSlices :=
  chunk_partition exampleProfile 2 (by decide) (by decide) exampleSlices (by decide)

/-- Claim C7 (amended): `chunk(profile, n)` yields at most `n` and at least one
chunk when the profile has at least one sample; requesting `n = 0` crashes
with a division-by-zero panic (modelled `none`) instead of returning any
structured error value. -/
theorem chunk_count_bound (p : Profile) (n : Nat) (hn : 1 ≤ n) (hs : p.samples ≠ []) :
    (∃ sls, p.chunkSlices n = some sls ∧ 1 ≤ sls.length ∧ sls.length ≤ n ∧
        ∀ cs, p.chunks n = some cs → cs.length = sls.length) ∧
      p.chunkSlices 0 = none ∧ p.chunks 0 = none := by
  have hnpos : 0 < n := hn
  have hlpos : 0 < p.samples.length := List.length_pos.mpr hs
  set k := (p.samples.length + n - 1) / n with hkdef
  have hkpos : 0 < k := ceil_pos hlpos hnpos
  have hslices : p.chunkSlices n = some (sliceChunks p.samples k) := by
    unfold Profile.chunkSlices div_ceil
    simp only [Nat.pos_iff_ne_zero.mp hnpos, if_false, ← hkdef,
      Nat.pos_iff_ne_zero.mp hkpos, if_false]
  refine ⟨⟨sliceChunks p.samples k, hslices, ?_, ?_, ?_⟩, ?_, ?_⟩
  · exact chunksGo_length_pos k (ceil_pos hlpos hkpos) hs
  · exact Nat.le_trans (chunksGo_length_le k _ p.samples) (ceil_le_bound hlpos hnpos hkdef)
  · intro cs hcs
    unfold Profile.chunks at hcs
    rw [hslices] at hcs
    have := (chunksFrom_spec p _ cs hcs).1
    calc cs.length = (cs.map ProfileChunk.samples).length := (List.length_map _ _).symm
      _ = (sliceChunks p.samples k).length := by rw [this]
  · unfold Profile.chunkSlices div_ceil
    simp
  · unfold Profile.chunks Profile.chunkSlices div_ceil
    simp

/-- Witness for `chunk_count_bound` at the spec's concrete scenario. -/
theorem chunk_count_bound_witness :
    (∃ sls, exampleProfile.chunkSlices 2 = some sls ∧ 1 ≤ sls.length ∧ sls.length ≤ 2 ∧
        ∀ cs, exampleProfile.chunks 2 = some cs → cs.length = sls.length) ∧
      exampleProfile.chunkSlices 0 = none ∧ exampleProfile.chunks 0 = none :=
  chunk_count_bound exampleProfile 2 (by decide) (by decide)

/-- Claim C7 counterexample: at `chunk_num = 0` the chunking call crashes (the
embedded result is the panic marker `none`); there is no error channel in the
chunking interface at all, so no `InvalidArgumentError` (or any structured
error) is ever produced. -/
theorem chunk_zero_crash :
    exampleProfile.chunks 0 = none ∧ exampleProfile.chunkSlices 0 = none := by
  exact ⟨rfl, rfl⟩

/-! Ancestor-walk lemmas (`ProfileChunk::new`) -/

theorem ParentClosedAt.mono {p : Profile} {inc inc' : Finset Nat} {x : Nat}
    (h : ParentClosedAt p inc x) (hsub : inc ⊆ inc') : ParentClosedAt p inc' x :=
  fun n hn a ha => hsub (h n hn a ha)

theorem lookupNode_mem {p : Profile} {id : Nat} {n : Node}
    (h : p.lookupNode id = some n) : n ∈ p.nodes := by
  unfold Profile.lookupNode at h
  cases hix : indexLookup p.node_index id with
  | none => rw [hix] at h; exact absurd h (by simp)
  | some pos => rw [hix] at h; exact List.getElem?_mem h

theorem parent_mem_idUniverse {p : Profile} {n : Node} {a : Nat}
    (hn : n ∈ p.nodes) (ha : n.parent_id = some a) : a ∈ p.idUniverse := by
  unfold Profile.idUniverse
  apply Finset.mem_union_right
  rw [List.mem_toFinset, List.mem_filterMap]
  exact ⟨n, hn, ha⟩

theorem sdiff_insert_card_lt {univ inc : Finset Nat} {a : Nat}
    (ha : a ∈ univ) (hni : a ∉ inc) :
    (univ \ insert a inc).card < (univ \ inc).card := by
  rw [Finset.sdiff_insert]
  exact Finset.card_erase_lt_of_mem (Finset.mem_sdiff.mpr ⟨ha, hni⟩)

theorem parentWalk_mono (p : Profile) :
    ∀ (fuel : Nat) (inc : Finset Nat) (cur : Nat) (out : Finset Nat),
      parentWalk p fuel inc cur = some out → inc ⊆ out := by
  intro fuel
  induction fuel with
  | zero => intro inc cur out h; simp [parentWalk] at h
  | succ fuel ih =>
    intro inc cur out h
    cases hlk : p.lookupNode cur with
    | none => simp only [parentWalk, hlk] at h; exact Option.noConfusion h
    | some node =>
      simp only [parentWalk, hlk] at h
      cases hpar : node.parent_id with
      | none =>
        simp only [hpar, Option.some_inj] at h
        subst h
        exact Finset.Subset.refl _
      | some pid =>
        simp only [hpar] at h
        by_cases hmem : pid ∈ inc
        · rw [if_pos hmem] at h
          obtain rfl := Option.some_inj.mp h
          exact Finset.Subset.refl _
        · rw [if_neg hmem] at h
          exact Finset.Subset.trans (Finset.subset_insert pid inc) (ih _ _ _ h)

theorem parentWalk_closed (p : Profile) :
    ∀ (fuel : Nat) (inc : Finset Nat) (cur : Nat) (out : Finset Nat),
      parentWalk p fuel inc cur = some out →
      (∀ x ∈ inc, x ≠ cur → ParentClosedAt p inc x) →
      ∀ x ∈ out, ParentClosedAt p out x := by
  intro fuel
  induction fuel with
  | zero => intro inc cur out h; simp [parentWalk] at h
  | succ fuel ih =>
    intro inc cur out h hcl
    cases hlk : p.lookupNode cur with
    | none => simp only [parentWalk, hlk] at h; exact Option.noConfusion h
    | some node =>
      simp only [parentWalk, hlk] at h
      cases hpar : node.parent_id with
      | none =>
        simp only [hpar, Option.some_inj] at h
        subst h
        intro x hx
        by_cases hxc : x = cur
        · subst hxc
          intro n hn a ha
          rw [hlk] at hn
          obtain rfl := Option.some_inj.mp hn
          rw [hpar] at ha
          cases ha
        · exact hcl x hx hxc
      | some pid =>
        simp only [hpar] at h
        by_cases hmem : pid ∈ inc
        · rw [if_pos hmem] at h
          obtain rfl := Option.some_inj.mp h
          intro x hx
          by_cases hxc : x = cur
          · subst hxc
            intro n hn a ha
            rw [hlk] at hn
            obtain rfl := Option.some_inj.mp hn
            rw [hpar] at ha
            obtain rfl := Option.some_inj.mp ha
            exact hmem
          · exact hcl x hx hxc
        · rw [if_neg hmem] at h
          refine ih _ _ _ h ?_
          intro x hx hxpid
          rcases Finset.mem_insert.mp hx with rfl | hxin
          · exact absurd rfl hxpid
          · by_cases hxc : x = cur
            · subst hxc
              intro n hn a ha
              rw [hlk] at hn
              obtain rfl := Option.some_inj.mp hn
              rw [hpar] at ha
              obtain rfl := Option.some_inj.mp ha
              exact Finset.mem_insert_self _ _
            · exact (hcl x hxin hxc).mono (Finset.subset_insert _ _)

theorem parentWalk_lookup (p : Profile) :
    ∀ (fuel : Nat) (inc : Finset Nat) (cur : Nat) (out : Finset Nat),
      parentWalk p fuel inc cur = some out →
      (∀ x ∈ inc, x ≠ cur → p.lookupNode x ≠ none) →
      ∀ x ∈ out, p.lookupNode x ≠ none := by
  intro fuel
  induction fuel with
  | zero => intro inc cur out h; simp [parentWalk] at h
  | succ fuel ih =>
    intro inc cur out h hlkh
    cases hlk : p.lookupNode cur with
    | none => simp only [parentWalk, hlk] at h; exact Option.noConfusion h
    | some node =>
      simp only [parentWalk, hlk] at h
      have hcurok : p.lookupNode cur ≠ none := by rw [hlk]; simp
      have hbase : ∀ x ∈ inc, p.lookupNode x ≠ none := by
        intro x hx
        by_cases hxc : x = cur
        · subst hxc; exact hcurok
        · exact hlkh x hx hxc
      cases hpar : node.parent_id with
      | none =>
        simp only [hpar, Option.some_inj] at h
        subst h
        exact hbase
      | some pid =>
        simp only [hpar] at h
        by_cases hmem : pid ∈ inc
        · rw [if_pos hmem] at h
          obtain rfl := Option.some_inj.mp h
          exact hbase
        · rw [if_neg hmem] at h
          refine ih _ _ _ h ?_
          intro x hx hxpid
          rcases Finset.mem_insert.mp hx with rfl | hxin
          · exact absurd rfl hxpid
          · exact hbase x hxin

theorem parentWalk_origin (p : Profile) :
    ∀ (fuel : Nat) (inc : Finset Nat) (cur : Nat) (out : Finset Nat),
      parentWalk p fuel inc cur = some out →
      ∀ x ∈ out, x ∈ inc ∨ Anc p x cur := by
  intro fuel
  induction fuel with
  | zero => intro inc cur out h; simp [parentWalk] at h
  | succ fuel ih =>
    intro inc cur out h
    cases hlk : p.lookupNode cur with
    | none => simp only [parentWalk, hlk] at h; exact Option.noConfusion h
    | some node =>
      simp only [parentWalk, hlk] at h
      cases hpar : node.parent_id with
      | none =>
        simp only [hpar, Option.some_inj] at h
        subst h
        exact fun x hx => Or.inl hx
      | some pid =>
        simp only [hpar] at h
        by_cases hmem : pid ∈ inc
        · rw [if_pos hmem] at h
          obtain rfl := Option.some_inj.mp h
          exact fun x hx => Or.inl hx
        · rw [if_neg hmem] at h
          intro x hx
          rcases ih _ _ _ h x hx with hxin | hanc
          · rcases Finset.mem_insert.mp hxin with rfl | hxi
            · exact Or.inr (Anc.parent hlk hpar)
            · exact Or.inl hxi
          · exact Or.inr (Anc.step hlk hpar hanc)

theorem parentWalk_total (p : Profile)
    (hpar : ∀ n ∈ p.nodes, ∀ a, n.parent_id = some a → p.lookupNode a ≠ none) :
    ∀ (fuel : Nat) (inc : Finset Nat) (cur : Nat),
      p.lookupNode cur ≠ none → (p.idUniverse \ inc).card < fuel →
      parentWalk p fuel inc cur ≠ none := by
  intro fuel
  induction fuel with
  | zero => intro inc cur _ hf; omega
  | succ fuel ih =>
    intro inc cur hcur hf
    cases hlk : p.lookupNode cur with
    | none => exact absurd hlk hcur
    | some node =>
      simp only [parentWalk, hlk]
      cases hparid : node.parent_id with
      | none => simp [hparid]
      | some pid =>
        simp only [hparid]
        by_cases hmem : pid ∈ inc
        · rw [if_pos hmem]; simp
        · rw [if_neg hmem]
          have hpidok : p.lookupNode pid ≠ none :=
            hpar node (lookupNode_mem hlk) pid hparid
          have hpiduniv : pid ∈ p.idUniverse :=
            parent_mem_idUniverse (lookupNode_mem hlk) hparid
          have hlt := sdiff_insert_card_lt hpiduniv hmem
          exact ih _ _ hpidok (by omega)

theorem includeSample_mono {p : Profile} {inc : Finset Nat} {nid : Nat} {out : Finset Nat}
    (h : includeSample p inc nid = some out) : inc ⊆ out ∧ nid ∈ out := by
  unfold includeSample at h
  by_cases hmem : nid ∈ inc
  · rw [if_pos hmem] at h
    cases h
    exact ⟨Finset.Subset.refl _, hmem⟩
  · rw [if_neg hmem] at h
    have hsub := parentWalk_mono p _ _ _ _ h
    exact ⟨Finset.Subset.trans (Finset.subset_insert _ _) hsub,
      hsub (Finset.mem_insert_self _ _)⟩

theorem includeSample_closed {p : Profile} {inc : Finset Nat} {nid : Nat} {out : Finset Nat}
    (h : includeSample p inc nid = some out)
    (hcl : ∀ x ∈ inc, ParentClosedAt p inc x) :
    ∀ x ∈ out, ParentClosedAt p out x := by
  unfold includeSample at h
  by_cases hmem : nid ∈ inc
  · rw [if_pos hmem] at h
    cases h
    exact hcl
  · rw [if_neg hmem] at h
    refine parentWalk_closed p _ _ _ _ h ?_
    intro x hx hxnid
    rcases Finset.mem_insert.mp hx with rfl | hxin
    · exact absurd rfl hxnid
    · exact (hcl x hxin).mono (Finset.subset_insert _ _)

theorem includeSample_lookup {p : Profile} {inc : Finset Nat} {nid : Nat} {out : Finset Nat}
    (h : includeSample p inc nid = some out)
    (hlk : ∀ x ∈ inc, p.lookupNode x ≠ none) :
    ∀ x ∈ out, p.lookupNode x ≠ none := by
  unfold includeSample at h
  by_cases hmem : nid ∈ inc
  · rw [if_pos hmem] at h
    cases h
    exact hlk
  · rw [if_neg hmem] at h
    refine parentWalk_lookup p _ _ _ _ h ?_
    intro x hx hxnid
    rcases Finset.mem_insert.mp hx with rfl | hxin
    · exact absurd rfl hxnid
    · exact hlk x hxin

theorem includeSample_origin {p : Profile} {inc : Finset Nat} {nid : Nat} {out : Finset Nat}
    (h : includeSample p inc nid = some out) :
    ∀ x ∈ out, x ∈ inc ∨ x = nid ∨ Anc p x nid := by
  unfold includeSample at h
  by_cases hmem : nid ∈ inc
  · rw [if_pos hmem] at h
    cases h
    exact fun x hx => Or.inl hx
  · rw [if_neg hmem] at h
    intro x hx
    rcases parentWalk_origin p _ _ _ _ h x hx with hxin | hanc
    · rcases Finset.mem_insert.mp hxin with rfl | hxi
      · exact Or.inr (Or.inl rfl)
      · exact Or.inl hxi
    · exact Or.inr (Or.inr hanc)

theorem includeSample_total {p : Profile} {inc : Finset Nat} {nid : Nat}
    (hpar : ∀ n ∈ p.nodes, ∀ a, n.parent_id = some a → p.lookupNode a ≠ none)
    (hnid : p.lookupNode nid ≠ none) : includeSample p inc nid ≠ none := by
  unfold includeSample
  by_cases hmem : nid ∈ inc
  · rw [if_pos hmem]; simp
  · rw [if_neg hmem]
    exact parentWalk_total p hpar _ _ _ hnid (Nat.lt_succ_self _)

theorem includeSample_crash {p : Profile} {inc : Finset Nat} {nid : Nat}
    (hnid : p.lookupNode nid = none)
    (hlk : ∀ x ∈ inc, p.lookupNode x ≠ none) : includeSample p inc nid = none := by
  unfold includeSample
  by_cases hmem : nid ∈ inc
  · exact absurd hnid (hlk nid hmem)
  · rw [if_neg hmem]
    simp only [parentWalk, hnid]

theorem buildIncluded_mono {p : Profile} :
    ∀ (samples : List Sample) (inc out : Finset Nat),
      buildIncluded p inc samples = some out → inc ⊆ out := by
  intro samples
  induction samples with
  | nil => intro inc out h; cases h; exact Finset.Subset.refl _
  | cons s rest ih =>
    intro inc out h
    simp only [buildIncluded] at h
    cases hstep : includeSample p inc s.node_id with
    | none => rw [hstep] at h; exact absurd h (by simp)
    | some inc' =>
      rw [hstep] at h
      exact Finset.Subset.trans (includeSample_mono hstep).1 (ih _ _ h)

theorem buildIncluded_closed {p : Profile} :
    ∀ (samples : List Sample) (inc out : Finset Nat),
      buildIncluded p inc samples = some out →
      (∀ x ∈ inc, ParentClosedAt p inc x) →
      ∀ x ∈ out, ParentClosedAt p out x := by
  intro samples
  induction samples with
  | nil => intro inc out h hcl; cases h; exact hcl
  | cons s rest ih =>
    intro inc out h hcl
    simp only [buildIncluded] at h
    cases hstep : includeSample p inc s.node_id with
    | none => rw [hstep] at h; exact absurd h (by simp)
    | some inc' =>
      rw [hstep] at h
      exact ih _ _ h (includeSample_closed hstep hcl)

theorem buildIncluded_lookup {p : Profile} :
    ∀ (samples : List Sample) (inc out : Finset Nat),
      buildIncluded p inc samples = some out →
      (∀ x ∈ inc, p.lookupNode x ≠ none) →
      ∀ x ∈ out, p.lookupNode x ≠ none := by
  intro samples
  induction samples with
  | nil => intro inc out h hlk; cases h; exact hlk
  | cons s rest ih =>
    intro inc out h hlk
    simp only [buildIncluded] at h
    cases hstep : includeSample p inc s.node_id with
    | none => rw [hstep] at h; exact absurd h (by simp)
    | some inc' =>
      rw [hstep] at h
      exact ih _ _ h (includeSample_lookup hstep hlk)

theorem buildIncluded_member {p : Profile} :
    ∀ (samples : List Sample) (inc out : Finset Nat),
      buildIncluded p inc samples = some out →
      ∀ s ∈ samples, s.node_id ∈ out := by
  intro samples
  induction samples with
  | nil => intro inc out _ s hs; simp at hs
  | cons s0 rest ih =>
    intro inc out h s hs
    simp only [buildIncluded] at h
    cases hstep : includeSample p inc s0.node_id with
    | none => rw [hstep] at h; exact absurd h (by simp)
    | some inc' =>
      rw [hstep] at h
      rcases List.mem_cons.mp hs with rfl | hs'
      · exact buildIncluded_mono _ _ _ h (includeSample_mono hstep).2
      · exact ih _ _ h s hs'

theorem buildIncluded_origin {p : Profile} :
    ∀ (samples : List Sample) (inc out : Finset Nat),
      buildIncluded p inc samples = some out →
      ∀ x ∈ out, x ∈ inc ∨ ∃ s ∈ samples, x = s.node_id ∨ Anc p x s.node_id := by
  intro samples
  induction samples with
  | nil => intro inc out h x hx; cases h; exact Or.inl hx
  | cons s0 rest ih =>
    intro inc out h x hx
    simp only [buildIncluded] at h
    cases hstep : includeSample p inc s0.node_id with
    | none => rw [hstep] at h; exact absurd h (by simp)
    | some inc' =>
      rw [hstep] at h
      rcases ih _ _ h x hx with hxin | ⟨s, hsmem, hcase⟩
      · rcases includeSample_origin hstep x hxin with hxi | hrest
        · exact Or.inl hxi
        · exact Or.inr ⟨s0, List.mem_cons_self _ _, hrest⟩
      · exact Or.inr ⟨s, List.mem_cons_of_mem _ hsmem, hcase⟩

theorem buildIncluded_total {p : Profile}
    (hpar : ∀ n ∈ p.nodes, ∀ a, n.parent_id = some a → p.lookupNode a ≠ none) :
    ∀ (samples : List Sample) (inc : Finset Nat),
      (∀ s ∈ samples, p.lookupNode s.node_id ≠ none) →
      buildIncluded p inc samples ≠ none := by
  intro samples
  induction samples with
  | nil => intro inc _; simp [buildIncluded]
  | cons s0 rest ih =>
    intro inc hok
    simp only [buildIncluded]
    cases hstep : includeSample p inc s0.node_id with
    | none =>
      exact absurd hstep (includeSample_total hpar (hok s0 (List.mem_cons_self _ _)))
    | some inc' =>
      exact ih _ (fun s hs => hok s (List.mem_cons_of_mem _ hs))

theorem buildIncluded_crash {p : Profile} :
    ∀ (samples : List Sample) (inc : Finset Nat) (s : Sample), s ∈ samples →
      p.lookupNode s.node_id = none →
      (∀ x ∈ inc, p.lookupNode x ≠ none) →
      buildIncluded p inc samples = none := by
  intro samples
  induction samples with
  | nil => intro inc s hs; simp at hs
  | cons s0 rest ih =>
    intro inc s hs hnone hlk
    simp only [buildIncluded]
    rcases List.mem_cons.mp hs with rfl | hs'
    · rw [includeSample_crash hnone hlk]
    · cases hstep : includeSample p inc s0.node_id with
      | none => rfl
      | some inc' =>
        exact ih _ s hs' hnone (includeSample_lookup hstep hlk)

theorem anc_mem_of_closed {p : Profile} {S : Finset Nat}
    (hcl : ∀ x ∈ S, ParentClosedAt p S x) :
    ∀ a c, Anc p a c → c ∈ S → a ∈ S := by
  intro a c h
  induction h with
  | parent hlk hpid => intro hc; exact hcl _ hc _ hlk _ hpid
  | step hlk hpid _ ih => intro hc; exact ih (hcl _ hc _ hlk _ hpid)

/-- Claim C2: for every chunk produced by `chunk(profile, n)`, the included-node
set is closed under ancestor-of: each sample's node id is included, and so is
every ancestor of it, despite the early exit of the upward walk. -/
theorem chunk_closure_complete (p : Profile) (n : Nat) (cs : List ProfileChunk)
    (h : p.chunks n = some cs) (c : ProfileChunk) (hc : c ∈ cs) (s : Sample)
    (hs : s ∈ c.samples) :
    s.node_id ∈ c.included ∧ ∀ a, Anc c.profile a s.node_id → a ∈ c.included := by
  unfold Profile.chunks at h
  cases hsl : p.chunkSlices n with
  | none => rw [hsl] at h; exact absurd h (by simp)
  | some sls =>
    rw [hsl] at h
    obtain ⟨-, hall⟩ := chunksFrom_spec p sls cs h
    obtain ⟨hprof, hbuild⟩ := hall c hc
    have hmem := buildIncluded_member _ _ _ hbuild s hs
    have hclosed := buildIncluded_closed _ _ _ hbuild (by intro x hx; simp at hx)
    refine ⟨hmem, ?_⟩
    intro a hanc
    rw [hprof] at hanc
    exact anc_mem_of_closed hclosed a s.node_id hanc hmem

/-- Witness for `chunk_closure_complete` at the spec's concrete scenario. -/
theorem chunk_closure_complete_witness :
    exampleSample.node_id ∈ exampleChunk.included ∧
      ∀ a, Anc exampleChunk.profile a exampleSample.node_id →
        a ∈ exampleChunk.included :=
  chunk_closure_complete exampleProfile 2 exampleChunks (by decide) exampleChunk
    (by decide) exampleSample (by decide)

theorem nodesOut_ids (nodes : List Node) (inc : Finset Nat) :
    ((nodes.filter (fun n => decide (n.id ∈ inc))).map (serializeFilteredNode inc)).map
        WireNode.id
      = (nodes.map Node.id).filter (fun i => decide (i ∈ inc)) := by
  induction nodes with
  | nil => rfl
  | cons n rest ih =>
    simp only [List.map_cons, List.filter_cons]
    by_cases hmem : n.id ∈ inc
    · simp only [hmem, decide_True, if_true, List.map_cons, ih]
      rfl
    · simp only [hmem, decide_False, Bool.false_eq_true, if_false, ih]

/-- Claim C6: every node id a chunk includes is either directly sampled in that
chunk or an ancestor of a directly sampled node; the chunk's node listing is
exactly the profile's nodes with included ids, in original order, each with its
children list filtered to the included set. -/
theorem chunk_closure_minimal (p : Profile) (n : Nat) (cs : List ProfileChunk)
    (h : p.chunks n = some cs) (c : ProfileChunk) (hc : c ∈ cs) :
    (∀ x ∈ c.included, ∃ s ∈ c.samples, x = s.node_id ∨ Anc c.profile x s.node_id) ∧
      c.nodesOut.map WireNode.id =
        (c.profile.nodes.map Node.id).filter (fun i => decide (i ∈ c.included)) ∧
      ∀ w ∈ c.nodesOut, ∃ node ∈ c.profile.nodes, node.id = w.id ∧ node.id ∈ c.included ∧
        w.children = node.children.map (filteredChildren c.included) ∧
        ∀ ch ∈ w.children.getD [], ch ∈ c.included ∧ ch ∈ node.children.getD [] := by
  unfold Profile.chunks at h
  cases hsl : p.chunkSlices n with
  | none => rw [hsl] at h; exact Option.noConfusion h
  | some sls =>
    rw [hsl] at h
    obtain ⟨-, hall⟩ := chunksFrom_spec p sls cs h
    obtain ⟨hprof, hbuild⟩ := hall c hc
    refine ⟨?_, ?_, ?_⟩
    · intro x hx
      rcases buildIncluded_origin _ _ _ hbuild x hx with hempty | ⟨s, hsmem, hcase⟩
      · simp at hempty
      · rw [hprof]
        exact ⟨s, hsmem, hcase⟩
    · exact nodesOut_ids c.profile.nodes c.included
    · intro w hw
      unfold ProfileChunk.nodesOut at hw
      rw [List.mem_map] at hw
      obtain ⟨node, hnodemem, rfl⟩ := hw
      rw [List.mem_filter] at hnodemem
      obtain ⟨hmem, hdec⟩ := hnodemem
      have hid : node.id ∈ c.included := of_decide_eq_true hdec
      refine ⟨node, hmem, rfl, hid, rfl, ?_⟩
      intro ch hch
      cases hchildren : node.children with
      | none =>
        have : (serializeFilteredNode c.included node).children = none := by
          simp [serializeFilteredNode, hchildren]
        rw [this] at hch
        simp at hch
      | some cl =>
        have hwch : (serializeFilteredNode c.included node).children =
            some (filteredChildren c.included cl) := by
          simp [serializeFilteredNode, hchildren]
        rw [hwch] at hch
        simp only [Option.getD_some] at hch
        unfold filteredChildren at hch
        rw [List.mem_filter] at hch
        exact ⟨of_decide_eq_true hch.2, by simp [hchildren, hch.1]⟩

/-- Witness for `chunk_closure_minimal` at the spec's concrete scenario. -/
theorem chunk_closure_minimal_witness :
    (∀ x ∈ exampleChunk.included, ∃ s ∈ exampleChunk.samples,
        x = s.node_id ∨ Anc exampleChunk.profile x s.node_id) ∧
      exampleChunk.nodesOut.map WireNode.id =
        (exampleChunk.profile.nodes.map Node.id).filter
          (fun i => decide (i ∈ exampleChunk.included)) ∧
      ∀ w ∈ exampleChunk.nodesOut, ∃ node ∈ exampleChunk.profile.nodes,
        node.id = w.id ∧ node.id ∈ exampleChunk.included ∧
        w.children = node.children.map (filteredChildren exampleChunk.included) ∧
        ∀ ch ∈ w.children.getD [],
          ch ∈ exampleChunk.included ∧ ch ∈ node.children.getD [] :=
  chunk_closure_minimal exampleProfile 2 exampleChunks (by decide) exampleChunk
    (by decide)

/-- Claim C10: serializing any chunk of a profile emits the parent profile's
`startTime` and `endTime` values unchanged — every chunk of the same profile
carries the whole profile's time fields, regardless of the time range its
sample slice covers. -/
theorem chunk_serialize_times (p : Profile) (n : Nat) (cs : List ProfileChunk)
    (h : p.chunks n = some cs) (c : ProfileChunk) (hc : c ∈ cs) :
    c.profile = p ∧
      ∀ w, c.serialize = some w →
        w.startTime = p.start_time ∧ w.endTime = p.end_time := by
  unfold Profile.chunks at h
  cases hsl : p.chunkSlices n with
  | none => rw [hsl] at h; exact Option.noConfusion h
  | some sls =>
    rw [hsl] at h
    obtain ⟨-, hall⟩ := chunksFrom_spec p sls cs h
    obtain ⟨hprof, -⟩ := hall c hc
    refine ⟨hprof, ?_⟩
    intro w hw
    cases hds : timeDeltasOf 0 c.samples with
    | none =>
      simp only [ProfileChunk.serialize, serializeProfileParts, hds] at hw
      exact Option.noConfusion hw
    | some ds =>
      simp only [ProfileChunk.serialize, serializeProfileParts, hds,
        Option.some_inj] at hw
      subst hw
      exact ⟨by rw [hprof], by rw [hprof]⟩

/-- Witness for `chunk_serialize_times` at the spec's concrete scenario. -/
theorem chunk_serialize_times_witness :
    exampleChunk.profile = exampleProfile ∧
      ∀ w, exampleChunk.serialize = some w →
        w.startTime = exampleProfile.start_time ∧
          w.endTime = exampleProfile.end_time :=
  chunk_serialize_times exampleProfile 2 exampleChunks (by decide) exampleChunk
    (by decide)

/-! Decoder characterization lemmas -/

theorem decodeNode_canonical (w : WireNode) :
    decodeNode (nodeToFields w) = .ok (nodeAsDecoded w) := by
  obtain ⟨id, cf, hc, ch, dr, pt⟩ := w
  cases ch <;> cases dr <;> cases pt <;> rfl

theorem childPairs_decoded (w : WireNode) :
    childPairs (nodeAsDecoded w) = (childIds w).map (fun c => (w.id, c)) := by
  obtain ⟨id, cf, hc, ch, dr, pt⟩ := w
  cases ch <;> rfl

theorem indexLookup_append (l₁ l₂ : List (Nat × Nat)) (c : Nat) :
    indexLookup (l₁ ++ l₂) c = (indexLookup l₁ c).or (indexLookup l₂ c) := by
  unfold indexLookup
  rw [List.find?_append]
  cases hfind : l₁.find? (fun e => e.1 == c) with
  | none => simp [hfind]
  | some e => simp [hfind]

theorem builtIndexFrom_lookup :
    ∀ (ws : List WireNode) (idx c pos : Nat),
      indexLookup (builtIndexFrom idx ws) c = some pos →
      ∃ j, ∃ h : j < ws.length, pos = idx + j ∧ (ws.get ⟨j, h⟩).id = c := by
  intro ws
  induction ws with
  | nil => intro idx c pos h; simp [builtIndexFrom, indexLookup] at h
  | cons w rest ih =>
    intro idx c pos h
    rw [builtIndexFrom, indexLookup_append] at h
    cases hrest : indexLookup (builtIndexFrom (idx + 1) rest) c with
    | some pos' =>
      rw [hrest] at h
      obtain rfl := Option.some_inj.mp h
      obtain ⟨j, hj, hpos, hid⟩ := ih (idx + 1) c pos' hrest
      refine ⟨j + 1, by simpa using Nat.succ_lt_succ hj, by omega, ?_⟩
      simpa using hid
    | none =>
      rw [hrest, Option.none_or] at h
      by_cases hbeq : (w.id == c) = true
      · simp only [indexLookup, List.find?, hbeq, Option.map_some',
          Option.some_inj] at h
        refine ⟨0, by simp, by omega, ?_⟩
        simpa using eq_of_beq hbeq
      · simp only [indexLookup, List.find?, hbeq] at h
        exact Option.noConfusion h

theorem builtIndexFrom_mem :
    ∀ (ws : List WireNode) (idx c : Nat), c ∈ ws.map WireNode.id →
      indexLookup (builtIndexFrom idx ws) c ≠ none := by
  intro ws
  induction ws with
  | nil => intro idx c h; simp at h
  | cons w rest ih =>
    intro idx c hc
    rw [builtIndexFrom, indexLookup_append]
    cases hrest : indexLookup (builtIndexFrom (idx + 1) rest) c with
    | some pos => simp
    | none =>
      rw [List.map_cons] at hc
      rcases List.mem_cons.mp hc with rfl | hcrest
      · simp only [Option.none_or, indexLookup, List.find?, beq_self_eq_true,
          Option.map_some']
        simp
      · exact absurd hrest (ih (idx + 1) _ hcrest)

theorem list_set_self {α : Type} :
    ∀ (l : List α) (i : Nat) (a : α), l[i]? = some a → l.set i a = l := by
  intro l
  induction l with
  | nil => intro i a h; simp at h
  | cons x xs ih =>
    intro i a h
    match i with
    | 0 =>
      simp only [List.getElem?_cons_zero, Option.some_inj] at h
      subst h
      rfl
    | i + 1 =>
      simp only [List.getElem?_cons_succ] at h
      simp [List.set, ih i a h]

theorem list_set_append_len {α : Type} :
    ∀ (pre : List α) (s v : α) (suf : List α),
      (pre ++ s :: suf).set pre.length v = pre ++ v :: suf := by
  intro pre
  induction pre with
  | nil => intro s v suf; rfl
  | cons a pre ih => intro s v suf; simp [List.set, ih]

theorem samplesSeqPass_spec :
    ∀ (ids : List Nat) (buf : List Sample),
      samplesSeqPass buf buf.length ids =
        buf ++ ids.map (fun id => (⟨id, 0⟩ : Sample)) := by
  intro ids
  induction ids with
  | nil => intro buf; simp [samplesSeqPass]
  | cons id rest ih =>
    intro buf
    have hnone : buf[buf.length]? = none := List.getElem?_eq_none (Nat.le_refl _)
    simp only [samplesSeqPass, hnone]
    rw [(by simp : buf.length + 1 = (buf ++ [(⟨id, 0⟩ : Sample)]).length), ih]
    simp

theorem samplesSeqPass_nil (ids : List Nat) :
    samplesSeqPass [] 0 ids = ids.map (fun id => (⟨id, 0⟩ : Sample)) := by
  have := samplesSeqPass_spec ids []
  simpa using this

theorem deltasSeqPass_spec :
    ∀ (ds : List Int) (pre suf : List Sample) (cur : Nat) (tss : List Nat),
      suf.length = ds.length → accumTs cur ds = some tss →
      ∃ cur', deltasSeqPass (pre ++ suf) cur pre.length ds =
        some (pre ++ List.zipWith (fun s t => { s with ts := t }) suf tss, cur') := by
  intro ds
  induction ds with
  | nil =>
    intro pre suf cur tss hlen hacc
    have hsuf : suf = [] := List.eq_nil_of_length_eq_zero hlen
    subst hsuf
    simp only [accumTs, Option.some_inj] at hacc
    subst hacc
    exact ⟨cur, by simp [deltasSeqPass]⟩
  | cons delta rest ih =>
    intro pre suf cur tss hlen hacc
    match suf with
    | [] => simp at hlen
    | s :: suf' =>
      cases hoff : offset_duration cur delta with
      | none =>
        simp only [accumTs, hoff] at hacc
        exact Option.noConfusion hacc
      | some c1 =>
        cases hacc' : accumTs c1 rest with
        | none =>
          simp only [accumTs, hoff, hacc'] at hacc
          exact Option.noConfusion hacc
        | some tss' =>
          simp only [accumTs, hoff, hacc', Option.some_inj] at hacc
          subst hacc
          have hget : (pre ++ s :: suf')[pre.length]? = some s := by
            rw [List.getElem?_append]
            simp
          simp only [deltasSeqPass, hoff, hget, list_set_append_len]
          rw [(by simp : pre ++ { s with ts := c1 } :: suf' =
              (pre ++ [{ s with ts := c1 }]) ++ suf'),
            (by simp : pre.length + 1 = (pre ++ [{ s with ts := c1 }]).length)]
          obtain ⟨cur', hrec⟩ := ih (pre ++ [{ s with ts := c1 }]) suf' c1 tss'
            (by simpa using hlen) hacc'
          refine ⟨cur', ?_⟩
          rw [hrec]
          simp [List.zipWith]

theorem deltasSeqPass_all (ds : List Int) (suf : List Sample) (cur : Nat) (tss : List Nat)
    (hlen : suf.length = ds.length) (hacc : accumTs cur ds = some tss) :
    ∃ cur', deltasSeqPass suf cur 0 ds =
      some (List.zipWith (fun s t => { s with ts := t }) suf tss, cur') := by
  obtain ⟨cur', h⟩ := deltasSeqPass_spec ds [] suf cur tss hlen hacc
  exact ⟨cur', by simpa using h⟩

theorem nodesSeqPass_spec :
    ∀ (ws : List WireNode) (st : DecState) (idx : Nat) (acc : List Node),
      st.nodes = some acc →
      nodesSeqPass st idx (ws.map nodeToFields) = .ok
        { st with
          node_index := builtIndexFrom idx ws ++ st.node_index
          parent_ids := st.parent_ids ++ pairsFrom ws
          nodes := some (acc ++ ws.map nodeAsDecoded) } := by
  intro ws
  induction ws with
  | nil =>
    intro st idx acc hacc
    simp only [List.map_nil, nodesSeqPass, builtIndexFrom, pairsFrom,
      List.nil_append, List.append_nil]
    rw [← hacc]
  | cons w rest ih =>
    intro st idx acc hacc
    simp only [List.map_cons, nodesSeqPass, decodeNode_canonical]
    rw [ih _ (idx + 1) (acc ++ [nodeAsDecoded w]) (by simp [hacc])]
    simp only [builtIndexFrom, pairsFrom, childPairs_decoded, hacc, Option.getD_some,
      List.append_assoc, List.singleton_append, List.cons_append, List.nil_append]
    rfl

theorem resolveParents_map {β : Type} (f : Node → β)
    (hf : ∀ (n : Node) (a : Nat), f { n with parent_id := some a } = f n)
    (ix : List (Nat × Nat)) :
    ∀ (ps : List (Nat × Nat)) (nodes out : List Node),
      resolveParents nodes ix ps = some out → out.map f = nodes.map f := by
  intro ps
  induction ps with
  | nil =>
    intro nodes out h
    simp only [resolveParents, Option.some_inj] at h
    subst h
    rfl
  | cons pr rest ih =>
    obtain ⟨a, c⟩ := pr
    intro nodes out h
    cases hlook : indexLookup ix c with
    | none =>
      simp only [resolveParents, hlook] at h
      exact Option.noConfusion h
    | some pos =>
      cases hget : nodes[pos]? with
      | none =>
        simp only [resolveParents, hlook, hget] at h
        exact Option.noConfusion h
      | some n0 =>
        simp only [resolveParents, hlook, hget] at h
        rw [ih _ _ h, List.map_set, hf]
        apply list_set_self
        rw [List.getElem?_map, hget]
        rfl

theorem resolveParents_length (ix : List (Nat × Nat)) :
    ∀ (ps : List (Nat × Nat)) (nodes out : List Node),
      resolveParents nodes ix ps = some out → out.length = nodes.length := by
  intro ps
  induction ps with
  | nil =>
    intro nodes out h
    simp only [resolveParents, Option.some_inj] at h
    subst h
    rfl
  | cons pr rest ih =>
    obtain ⟨a, c⟩ := pr
    intro nodes out h
    cases hlook : indexLookup ix c with
    | none =>
      simp only [resolveParents, hlook] at h
      exact Option.noConfusion h
    | some pos =>
      cases hget : nodes[pos]? with
      | none =>
        simp only [resolveParents, hlook, hget] at h
        exact Option.noConfusion h
      | some n0 =>
        simp only [resolveParents, hlook, hget] at h
        rw [ih _ _ h, List.length_set]

theorem resolveParents_total (ix : List (Nat × Nat)) :
    ∀ (ps : List (Nat × Nat)) (nodes : List Node),
      (∀ pr ∈ ps, ∃ pos, indexLookup ix pr.2 = some pos ∧ pos < nodes.length) →
      resolveParents nodes ix ps ≠ none := by
  intro ps
  induction ps with
  | nil => intro nodes _; simp [resolveParents]
  | cons pr rest ih =>
    obtain ⟨a, c⟩ := pr
    intro nodes hok
    obtain ⟨pos, hlook, hlt⟩ := hok (a, c) (List.mem_cons_self _ _)
    have hget : nodes[pos]? = some (nodes.get ⟨pos, hlt⟩) := by
      rw [List.getElem?_eq_getElem hlt]
      rfl
    simp only [resolveParents, hlook, hget]
    apply ih
    intro pr hpr
    obtain ⟨pos', hlook', hlt'⟩ := hok pr (List.mem_cons_of_mem _ hpr)
    exact ⟨pos', hlook', by rw [List.length_set]; exact hlt'⟩

theorem resolveParents_parent_src (ix : List (Nat × Nat)) :
    ∀ (ps : List (Nat × Nat)) (nodes out : List Node),
      resolveParents nodes ix ps = some out →
      ∀ nd ∈ out, ∀ a, nd.parent_id = some a →
        (∃ nd0 ∈ nodes, nd0.parent_id = some a) ∨ ∃ c, (a, c) ∈ ps := by
  intro ps
  induction ps with
  | nil =>
    intro nodes out h nd hnd a ha
    simp only [resolveParents, Option.some_inj] at h
    subst h
    exact Or.inl ⟨nd, hnd, ha⟩
  | cons pr rest ih =>
    obtain ⟨a0, c0⟩ := pr
    intro nodes out h nd hnd a ha
    cases hlook : indexLookup ix c0 with
    | none =>
      simp only [resolveParents, hlook] at h
      exact Option.noConfusion h
    | some pos =>
      cases hget : nodes[pos]? with
      | none =>
        simp only [resolveParents, hlook, hget] at h
        exact Option.noConfusion h
      | some n0 =>
        simp only [resolveParents, hlook, hget] at h
        rcases ih _ _ h nd hnd a ha with ⟨nd0, hnd0, ha0⟩ | ⟨c, hc⟩
        · rcases List.mem_or_eq_of_mem_set hnd0 with hin | rfl
          · exact Or.inl ⟨nd0, hin, ha0⟩
          · simp only [Option.some_inj] at ha0
            subst ha0
            exact Or.inr ⟨c0, List.mem_cons_self _ _⟩
        · exact Or.inr ⟨c, List.mem_cons_of_mem _ hc⟩

theorem resolveParents_char (ix : List (Nat × Nat)) :
    ∀ (ps : List (Nat × Nat)) (nodes out : List Node),
      resolveParents nodes ix ps = some out →
      ∀ (j : Nat) (hj : j < nodes.length) (hj' : j < out.length),
        out.get ⟨j, hj'⟩ =
          match lastAssigned ix j ps with
          | none => nodes.get ⟨j, hj⟩
          | some a => { nodes.get ⟨j, hj⟩ with parent_id := some a } := by
  intro ps
  induction ps with
  | nil =>
    intro nodes out h j hj hj'
    simp only [resolveParents, Option.some_inj] at h
    subst h
    rfl
  | cons pr rest ih =>
    obtain ⟨a, c⟩ := pr
    intro nodes out h j hj hj'
    cases hlook : indexLookup ix c with
    | none =>
      simp only [resolveParents, hlook] at h
      exact Option.noConfusion h
    | some pos =>
      cases hget : nodes[pos]? with
      | none =>
        simp only [resolveParents, hlook, hget] at h
        exact Option.noConfusion h
      | some n0 =>
        simp only [resolveParents, hlook, hget] at h
        have hj2 : j < (nodes.set pos { n0 with parent_id := some a }).length := by
          rw [List.length_set]; exact hj
        have hchar := ih _ _ h j hj2 hj'
        have hsetget : (nodes.set pos { n0 with parent_id := some a }).get ⟨j, hj2⟩ =
            if pos = j then { n0 with parent_id := some a } else nodes.get ⟨j, hj⟩ := by
          rw [List.get_eq_getElem, List.getElem_set]
          by_cases hpj : pos = j
          · rw [if_pos hpj, if_pos hpj]
          · rw [if_neg hpj, if_neg hpj, List.get_eq_getElem]
        have hn0eq : ∀ hpj : pos = j, n0 = nodes.get ⟨j, hj⟩ := by
          intro hpj
          have h1 : nodes[j]? = some n0 := by rw [← hpj]; exact hget
          have h2 := List.getElem?_eq_getElem hj
          rw [h1] at h2
          rw [List.get_eq_getElem]
          exact Option.some_inj.mp h2
        cases hla : lastAssigned ix j rest with
        | some a' =>
          simp only [lastAssigned, hla]
          rw [hla] at hchar
          rw [hchar, hsetget]
          by_cases hpj : pos = j
          · rw [if_pos hpj, hn0eq hpj]
          · rw [if_neg hpj]
        | none =>
          simp only [lastAssigned, hla]
          rw [hla] at hchar
          by_cases hjc : indexLookup ix c = some j
          · rw [if_pos hjc]
            have hpj : pos = j := by
              rw [hlook] at hjc
              exact Option.some_inj.mp hjc
            rw [hchar, hsetget, if_pos hpj, hn0eq hpj]
          · rw [if_neg hjc]
            have hpj : pos ≠ j := by
              intro heq
              exact hjc (by rw [hlook, heq])
            rw [hchar, hsetget, if_neg hpj]

theorem pairsFrom_mem :
    ∀ (ws : List WireNode) (a c : Nat), (a, c) ∈ pairsFrom ws →
      ∃ w ∈ ws, a = w.id ∧ c ∈ childIds w := by
  intro ws
  induction ws with
  | nil => intro a c h; simp [pairsFrom] at h
  | cons w rest ih =>
    intro a c h
    rw [pairsFrom] at h
    rcases List.mem_append.mp h with hl | hr
    · rw [List.mem_map] at hl
      obtain ⟨c0, hc0, heq⟩ := hl
      cases heq
      exact ⟨w, List.mem_cons_self _ _, rfl, hc0⟩
    · obtain ⟨w', hw', h1, h2⟩ := ih a c hr
      exact ⟨w', List.mem_cons_of_mem _ hw', h1, h2⟩

/-- Central characterization of a canonical decode: the field loop succeeds,
the parent resolution pass succeeds, and the decoded profile is exactly the
wire nodes (with derived parents), the wire times, the sorted zip of sample
ids with accumulated timestamps, and the prepend-built node index. -/
theorem decode_canonical (d : WireDoc)
    (hlen : d.samples.length = d.timeDeltas.length)
    (tss : List Nat) (hacc : accumTs 0 d.timeDeltas = some tss)
    (hres : ∀ w ∈ d.nodes, ∀ c ∈ childIds w, c ∈ nodeIds d) :
    ∃ nodes',
      resolveParents (d.nodes.map nodeAsDecoded) (builtIndexFrom 0 d.nodes)
          (pairsFrom d.nodes) = some nodes' ∧
        decodeProfile (toFields d) = .ok
          ⟨nodes', d.startTime, d.endTime,
            List.insertionSort Sample.le
              (List.zipWith (fun id t => (⟨id, t⟩ : Sample)) d.samples tss),
            builtIndexFrom 0 d.nodes⟩ := by
  -- every queued (parent, child) pair resolves to a valid position
  have hpairs : ∀ pr ∈ pairsFrom d.nodes,
      ∃ pos, indexLookup (builtIndexFrom 0 d.nodes) pr.2 = some pos ∧
        pos < (d.nodes.map nodeAsDecoded).length := by
    intro pr hpr
    obtain ⟨a, c⟩ := pr
    obtain ⟨w, hw, -, hc⟩ := pairsFrom_mem d.nodes a c hpr
    have hcid : c ∈ nodeIds d := hres w hw c hc
    cases hlook : indexLookup (builtIndexFrom 0 d.nodes) c with
    | none => exact absurd hlook (builtIndexFrom_mem d.nodes 0 c hcid)
    | some pos =>
      obtain ⟨j, hj, hpos, -⟩ := builtIndexFrom_lookup d.nodes 0 c pos hlook
      exact ⟨pos, rfl, by rw [List.length_map]; omega⟩
  cases hrp : resolveParents (d.nodes.map nodeAsDecoded) (builtIndexFrom 0 d.nodes)
      (pairsFrom d.nodes) with
  | none =>
    exact absurd hrp (resolveParents_total (builtIndexFrom 0 d.nodes)
      (pairsFrom d.nodes) (d.nodes.map nodeAsDecoded) hpairs)
  | some nodes' =>
    refine ⟨nodes', rfl, ?_⟩
    -- step 1: the `nodes` field
    have h1 : profileFieldsLoop ({} : DecState) (toFields d) =
        match nodesSeqPass ({ nodes := some [] } : DecState) 0
            (d.nodes.map nodeToFields) with
        | .error e => some (.error e)
        | .ok st' => profileFieldsLoop st'
            [.startTime d.startTime, .endTime d.endTime, .samples d.samples,
              .timeDeltas d.timeDeltas] := rfl
    have h2 := nodesSeqPass_spec d.nodes ({ nodes := some [] } : DecState) 0 [] rfl
    -- steps 2-4: `startTime`, `endTime`, `samples`
    have h3 : profileFieldsLoop ({} : DecState) (toFields d) =
        profileFieldsLoop
          { node_index := builtIndexFrom 0 d.nodes ++ [],
            parent_ids := pairsFrom d.nodes,
            nodes := some (d.nodes.map nodeAsDecoded),
            start_time := some d.startTime,
            end_time := some d.endTime,
            has_samples := true,
            samples := samplesSeqPass [] 0 d.samples }
          [.timeDeltas d.timeDeltas] := by
      rw [h1, h2]
      exact rfl
    rw [samplesSeqPass_nil] at h3
    -- step 5: `timeDeltas`
    obtain ⟨cur', hdelta⟩ := deltasSeqPass_all d.timeDeltas
      (d.samples.map (fun id => (⟨id, 0⟩ : Sample))) 0 tss
      (by rw [List.length_map]; exact hlen) hacc
    have h4 : profileFieldsLoop ({} : DecState) (toFields d) =
        some (.ok
          { node_index := builtIndexFrom 0 d.nodes ++ [],
            parent_ids := pairsFrom d.nodes,
            nodes := some (d.nodes.map nodeAsDecoded),
            start_time := some d.startTime,
            end_time := some d.endTime,
            has_samples := true,
            has_time_deltas := true,
            samples := List.zipWith (fun s t => { s with ts := t })
              (d.samples.map (fun id => (⟨id, 0⟩ : Sample))) tss,
            current := cur' }) := by
      rw [h3]
      show (match deltasSeqPass (d.samples.map (fun id => (⟨id, 0⟩ : Sample))) 0 0
          d.timeDeltas with
        | none => none
        | some (buf, cur) => profileFieldsLoop
            { node_index := builtIndexFrom 0 d.nodes ++ [],
              parent_ids := pairsFrom d.nodes,
              nodes := some (d.nodes.map nodeAsDecoded),
              start_time := some d.startTime,
              end_time := some d.endTime,
              has_samples := true,
              has_time_deltas := true,
              samples := buf,
              current := cur } []) = _
      rw [hdelta]
      exact rfl
    -- assemble `decodeProfile`
    unfold decodeProfile
    rw [h4]
    simp only [List.append_nil]
    rw [hrp]
    simp only [List.zipWith_map_left]
    exact rfl

/-- Claim C4: after a successful canonical decode, the sample sequence is the
stable sort by `ts` of the pre-sort buffer — whose k-th entry pairs the k-th
`samples` id, in document order, with the running sum of the first `k+1`
`timeDeltas` — and it is sorted ascending by `ts` (hypotheses require the
prefix sums never to drive the accumulator negative: `accumTs` succeeds). -/
theorem decode_sample_order (d : WireDoc)
    (hlen : d.samples.length = d.timeDeltas.length)
    (tss : List Nat) (hacc : accumTs 0 d.timeDeltas = some tss)
    (hres : ∀ w ∈ d.nodes, ∀ c ∈ childIds w, c ∈ nodeIds d)
    (p : Profile) (hdec : decodeProfile (toFields d) = .ok p) :
    p.samples = List.insertionSort Sample.le
        (List.zipWith (fun id t => (⟨id, t⟩ : Sample)) d.samples tss) ∧
      List.Sorted Sample.le p.samples ∧
      p.samples.Perm
        (List.zipWith (fun id t => (⟨id, t⟩ : Sample)) d.samples tss) := by
  obtain ⟨nodes', hrp, hdec'⟩ := decode_canonical d hlen tss hacc hres
  rw [hdec'] at hdec
  injection hdec with h
  subst h
  refine ⟨rfl, ?_, ?_⟩
  · exact List.sorted_insertionSort Sample.le _
  · exact List.perm_insertionSort Sample.le _

/-- Witness for `decode_sample_order` at the spec's concrete scenario. -/
theorem decode_sample_order_witness :
    exampleProfile.samples = List.insertionSort Sample.le
        (List.zipWith (fun id t => (⟨id, t⟩ : Sample)) exampleDoc.samples
          [100, 150, 175]) ∧
      List.Sorted Sample.le exampleProfile.samples ∧
      exampleProfile.samples.Perm
        (List.zipWith (fun id t => (⟨id, t⟩ : Sample)) exampleDoc.samples
          [100, 150, 175]) :=
  decode_sample_order exampleDoc (by decide) [100, 150, 175] (by decide) (by decide)
    exampleProfile (by decide)

theorem lastAssigned_src (ix : List (Nat × Nat)) (j : Nat) :
    ∀ (ps : List (Nat × Nat)) (a : Nat), lastAssigned ix j ps = some a →
      ∃ c, (a, c) ∈ ps ∧ indexLookup ix c = some j := by
  intro ps
  induction ps with
  | nil => intro a h; simp [lastAssigned] at h
  | cons pr rest ih =>
    obtain ⟨a0, c0⟩ := pr
    intro a h
    cases hla : lastAssigned ix j rest with
    | some a' =>
      simp only [lastAssigned, hla, Option.some_inj] at h
      rw [← h]
      obtain ⟨c, hc, hl⟩ := ih a' hla
      exact ⟨c, List.mem_cons_of_mem _ hc, hl⟩
    | none =>
      simp only [lastAssigned, hla] at h
      by_cases hlook : indexLookup ix c0 = some j
      · rw [if_pos hlook] at h
        obtain rfl := Option.some_inj.mp h
        exact ⟨c0, List.mem_cons_self _ _, hlook⟩
      · rw [if_neg hlook] at h
        exact Option.noConfusion h

theorem lastAssigned_none (ix : List (Nat × Nat)) (j : Nat) :
    ∀ (ps : List (Nat × Nat)),
      lastAssigned ix j ps = none ↔ ∀ pr ∈ ps, indexLookup ix pr.2 ≠ some j := by
  intro ps
  induction ps with
  | nil => simp [lastAssigned]
  | cons pr rest ih =>
    obtain ⟨a0, c0⟩ := pr
    constructor
    · intro h pr' hpr'
      cases hla : lastAssigned ix j rest with
      | some a' =>
        simp only [lastAssigned, hla] at h
        exact Option.noConfusion h
      | none =>
        simp only [lastAssigned, hla] at h
        rcases List.mem_cons.mp hpr' with rfl | hmem
        · intro hlook
          rw [if_pos hlook] at h
          exact Option.noConfusion h
        · exact (ih.mp hla) pr' hmem
    · intro hall
      cases hla : lastAssigned ix j rest with
      | some a' =>
        obtain ⟨c, hc, hl⟩ := lastAssigned_src ix j rest a' hla
        exact absurd hl (hall (a', c) (List.mem_cons_of_mem _ hc))
      | none =>
        simp only [lastAssigned, hla]
        rw [if_neg (hall (a0, c0) (List.mem_cons_self _ _))]

theorem pairsFrom_mem_of :
    ∀ (ws : List WireNode) (w : WireNode), w ∈ ws → ∀ c ∈ childIds w,
      (w.id, c) ∈ pairsFrom ws := by
  intro ws
  induction ws with
  | nil => intro w hw; simp at hw
  | cons w0 rest ih =>
    intro w hw c hc
    rw [pairsFrom]
    rcases List.mem_cons.mp hw with rfl | hmem
    · exact List.mem_append_left _ (List.mem_map.mpr ⟨c, hc, rfl⟩)
    · exact List.mem_append_right _ (ih w hmem c hc)

/-- Claim C5: in a canonical document with unique node ids where each id appears
in at most one `children` entry, the decoded node with id `C` has
`parent_id = some N.id` for the node `N` whose `children` list contains `C`
(such a decoded node exists), and a decoded node's `parent_id` is `none`
exactly when no node's children list contains its id — independent of
document order, thanks to the two-pass resolution. -/
theorem parent_derivation (d : WireDoc)
    (hlen : d.samples.length = d.timeDeltas.length)
    (tss : List Nat) (hacc : accumTs 0 d.timeDeltas = some tss)
    (hres : ∀ w ∈ d.nodes, ∀ c ∈ childIds w, c ∈ nodeIds d)
    (huniq : (nodeIds d).Nodup)
    (hchld : ((pairsFrom d.nodes).map Prod.snd).Nodup)
    (p : Profile) (hdec : decodeProfile (toFields d) = .ok p) :
    (∀ N ∈ d.nodes, ∀ C ∈ childIds N,
        (∃ nc ∈ p.nodes, nc.id = C) ∧
        ∀ nc ∈ p.nodes, nc.id = C → nc.parent_id = some N.id) ∧
      ∀ nc ∈ p.nodes, (nc.parent_id = none ↔ ∀ N ∈ d.nodes, nc.id ∉ childIds N) := by
  obtain ⟨nodes', hrp, hdec'⟩ := decode_canonical d hlen tss hacc hres
  rw [hdec'] at hdec
  injection hdec with h
  have hpnodes : p.nodes = nodes' := by rw [← h]
  rw [hpnodes]
  have hlen' : nodes'.length = d.nodes.length := by
    rw [resolveParents_length _ _ _ nodes' hrp, List.length_map]
  have hchar := resolveParents_char (builtIndexFrom 0 d.nodes) (pairsFrom d.nodes)
    (List.map nodeAsDecoded d.nodes) nodes' hrp
  have hget0 : ∀ (j : Nat) (hj : j < d.nodes.length)
      (hj0 : j < (List.map nodeAsDecoded d.nodes).length),
      (List.map nodeAsDecoded d.nodes).get ⟨j, hj0⟩ =
        nodeAsDecoded (d.nodes.get ⟨j, hj⟩) := by
    intro j hj hj0
    simp only [List.get_eq_getElem, List.getElem_map]
  -- id of the j-th resolved node
  have hid : ∀ (j : Nat) (hj' : j < nodes'.length),
      (nodes'.get ⟨j, hj'⟩).id =
        (d.nodes.get ⟨j, by omega⟩).id := by
    intro j hj'
    have hj : j < d.nodes.length := by omega
    have hj0 : j < (List.map nodeAsDecoded d.nodes).length := by
      rw [List.length_map]; omega
    have hc := hchar j hj0 hj'
    cases hla : lastAssigned (builtIndexFrom 0 d.nodes) j (pairsFrom d.nodes) with
    | none => rw [hla] at hc; rw [hc, hget0 j hj hj0]; try rfl
    | some a => rw [hla] at hc; rw [hc, hget0 j hj hj0]; try rfl
  -- a successful index lookup pins down a position carrying that id
  have hlook_pos : ∀ (c j : Nat),
      indexLookup (builtIndexFrom 0 d.nodes) c = some j →
      ∃ hj : j < d.nodes.length, (d.nodes.get ⟨j, hj⟩).id = c := by
    intro c j hl
    obtain ⟨j0, hj0, hpos, hid0⟩ := builtIndexFrom_lookup d.nodes 0 c j hl
    refine ⟨by omega, ?_⟩
    have hjj : j = j0 := by omega
    subst hjj
    exact hid0
  -- with unique ids, equal ids force equal positions
  have hpos_uniq : ∀ (j j' : Nat) (hj : j < d.nodes.length) (hj' : j' < d.nodes.length),
      (d.nodes.get ⟨j, hj⟩).id = (d.nodes.get ⟨j', hj'⟩).id → j = j' := by
    intro j j' hj hj' heq
    have hjm : j < (d.nodes.map WireNode.id).length := by rw [List.length_map]; omega
    have hjm' : j' < (d.nodes.map WireNode.id).length := by rw [List.length_map]; omega
    have h1 : (d.nodes.map WireNode.id).get ⟨j, hjm⟩ =
        (d.nodes.map WireNode.id).get ⟨j', hjm'⟩ := by
      rw [List.get_map, List.get_map]
      exact heq
    exact congrArg Fin.val ((huniq.get_inj_iff).mp h1)
  -- the id of any document node looks up to its own position
  have hlook_of_id : ∀ (j : Nat) (hj : j < d.nodes.length),
      indexLookup (builtIndexFrom 0 d.nodes) ((d.nodes.get ⟨j, hj⟩).id) = some j := by
    intro j hj
    have hmem : (d.nodes.get ⟨j, hj⟩).id ∈ d.nodes.map WireNode.id :=
      List.mem_map.mpr ⟨_, List.get_mem _ _ _, rfl⟩
    cases hl : indexLookup (builtIndexFrom 0 d.nodes) ((d.nodes.get ⟨j, hj⟩).id) with
    | none => exact absurd hl (builtIndexFrom_mem d.nodes 0 _ hmem)
    | some j0 =>
      obtain ⟨hj0, hid0⟩ := hlook_pos _ j0 hl
      rw [hpos_uniq j0 j hj0 hj hid0]
  -- the resolved parent is exactly the last queued assignment for the position
  have hparent : ∀ (j : Nat) (hj' : j < nodes'.length),
      (nodes'.get ⟨j, hj'⟩).parent_id =
        lastAssigned (builtIndexFrom 0 d.nodes) j (pairsFrom d.nodes) := by
    intro j hj'
    have hj : j < d.nodes.length := by omega
    have hj0 : j < (List.map nodeAsDecoded d.nodes).length := by
      rw [List.length_map]; omega
    have hc := hchar j hj0 hj'
    cases hla : lastAssigned (builtIndexFrom 0 d.nodes) j (pairsFrom d.nodes) with
    | none => rw [hla] at hc; rw [hc, hget0 j hj hj0]; try rfl
    | some a => rw [hla] at hc; rw [hc, hget0 j hj hj0]; try rfl
  constructor
  · intro N hN C hC
    have hCid : C ∈ nodeIds d := hres N hN C hC
    obtain ⟨wC, hwC, hwCid⟩ := List.mem_map.mp hCid
    obtain ⟨⟨jC, hjC⟩, hgetC⟩ := List.mem_iff_get.mp hwC
    constructor
    · refine ⟨nodes'.get ⟨jC, by omega⟩, List.get_mem _ _ _, ?_⟩
      exact (hid jC (by omega)).trans ((congrArg WireNode.id hgetC).trans hwCid)
    · intro nc hnc hncid
      obtain ⟨⟨j, hj'⟩, hgetj⟩ := List.mem_iff_get.mp hnc
      have hjd : j < d.nodes.length := by omega
      have hidj : (d.nodes.get ⟨j, hjd⟩).id = C := by
        have := hid j hj'
        rw [hgetj, hncid] at this
        exact this.symm
      have hlookC : indexLookup (builtIndexFrom 0 d.nodes) C = some j := by
        rw [← hidj]
        exact hlook_of_id j hjd
      have hpairN : (N.id, C) ∈ pairsFrom d.nodes := pairsFrom_mem_of d.nodes N hN C hC
      cases hla : lastAssigned (builtIndexFrom 0 d.nodes) j (pairsFrom d.nodes) with
      | none =>
        exact absurd hlookC
          ((lastAssigned_none (builtIndexFrom 0 d.nodes) j (pairsFrom d.nodes)).mp hla
            (N.id, C) hpairN)
      | some a =>
        obtain ⟨c', hc'mem, hc'look⟩ :=
          lastAssigned_src (builtIndexFrom 0 d.nodes) j (pairsFrom d.nodes) a hla
        obtain ⟨hjc', hidc'⟩ := hlook_pos c' j hc'look
        have hcc : c' = C := hidc'.symm.trans hidj
        subst hcc
        have heqpair : (a, c') = (N.id, c') :=
          List.inj_on_of_nodup_map hchld hc'mem hpairN rfl
        have ha : a = N.id := congrArg Prod.fst heqpair
        rw [← hgetj, hparent j hj', hla, ha]
  · intro nc hnc
    obtain ⟨⟨j, hj'⟩, hgetj⟩ := List.mem_iff_get.mp hnc
    have hjd : j < d.nodes.length := by omega
    have hidj : (d.nodes.get ⟨j, hjd⟩).id = nc.id := by
      have := hid j hj'
      rw [hgetj] at this
      exact this.symm
    have hpar_nc : nc.parent_id =
        lastAssigned (builtIndexFrom 0 d.nodes) j (pairsFrom d.nodes) := by
      rw [← hgetj]
      exact hparent j hj'
    rw [hpar_nc]
    constructor
    · intro hnone N hN hCmem
      have hpairN : (N.id, nc.id) ∈ pairsFrom d.nodes :=
        pairsFrom_mem_of d.nodes N hN nc.id hCmem
      have hlookC : indexLookup (builtIndexFrom 0 d.nodes) nc.id = some j := by
        rw [← hidj]
        exact hlook_of_id j hjd
      exact (lastAssigned_none (builtIndexFrom 0 d.nodes) j (pairsFrom d.nodes)).mp
        hnone (N.id, nc.id) hpairN hlookC
    · intro hall
      cases hla : lastAssigned (builtIndexFrom 0 d.nodes) j (pairsFrom d.nodes) with
      | none => rfl
      | some a =>
        obtain ⟨c', hc'mem, hc'look⟩ :=
          lastAssigned_src (builtIndexFrom 0 d.nodes) j (pairsFrom d.nodes) a hla
        obtain ⟨hjc', hidc'⟩ := hlook_pos c' j hc'look
        have hcc : c' = nc.id := hidc'.symm.trans hidj
        obtain ⟨w, hw, -, hcw⟩ := pairsFrom_mem d.nodes a c' hc'mem
        rw [hcc] at hcw
        exact absurd hcw (hall w hw)

theorem accumTs_length :
    ∀ (ds : List Int) (cur : Nat) (tss : List Nat),
      accumTs cur ds = some tss → tss.length = ds.length := by
  intro ds
  induction ds with
  | nil =>
    intro cur tss h
    simp only [accumTs, Option.some_inj] at h
    subst h
    rfl
  | cons δ rest ih =>
    intro cur tss h
    cases hoff : offset_duration cur δ with
    | none =>
      simp only [accumTs, hoff] at h
      exact Option.noConfusion h
    | some c1 =>
      cases hacc' : accumTs c1 rest with
      | none =>
        simp only [accumTs, hoff, hacc'] at h
        exact Option.noConfusion h
      | some tss' =>
        simp only [accumTs, hoff, hacc', Option.some_inj] at h
        subst h
        simp [ih c1 tss' hacc']

theorem accumTs_of_nonneg :
    ∀ (ds : List Int) (cur : Nat), (∀ δ ∈ ds, 0 ≤ δ) →
      ∃ tss, accumTs cur ds = some tss ∧ List.Chain' (· ≤ ·) (cur :: tss) := by
  intro ds
  induction ds with
  | nil => intro cur _; exact ⟨[], rfl, by simp⟩
  | cons δ rest ih =>
    intro cur hpos
    have hδ : 0 ≤ δ := hpos δ (List.mem_cons_self _ _)
    have hoff : offset_duration cur δ = some ((cur : Int) + δ).toNat := by
      unfold offset_duration
      rw [if_neg (by omega)]
    obtain ⟨tss', hacc', hchain⟩ := ih ((cur : Int) + δ).toNat
      (fun e he => hpos e (List.mem_cons_of_mem _ he))
    refine ⟨((cur : Int) + δ).toNat :: tss', ?_, ?_⟩
    · simp only [accumTs, hoff, hacc']
    · rw [List.chain'_cons]
      exact ⟨by omega, hchain⟩

theorem timeDeltasOf_accum :
    ∀ (ds : List Int) (ids : List Nat) (cur : Nat) (tss : List Nat),
      ids.length = ds.length → (∀ δ ∈ ds, 0 ≤ δ) →
      accumTs cur ds = some tss →
      timeDeltasOf cur (List.zipWith (fun id t => (⟨id, t⟩ : Sample)) ids tss) =
        some ds := by
  intro ds
  induction ds with
  | nil =>
    intro ids cur tss hlen _ hacc
    simp only [accumTs, Option.some_inj] at hacc
    subst hacc
    simp [timeDeltasOf, List.zipWith_nil_right]
  | cons δ rest ih =>
    intro ids cur tss hlen hpos hacc
    match ids with
    | [] => simp at hlen
    | id :: ids' =>
      have hδ : 0 ≤ δ := hpos δ (List.mem_cons_self _ _)
      cases hoff : offset_duration cur δ with
      | none =>
        simp only [accumTs, hoff] at hacc
        exact Option.noConfusion hacc
      | some c1 =>
        cases hacc' : accumTs c1 rest with
        | none =>
          simp only [accumTs, hoff, hacc'] at hacc
          exact Option.noConfusion hacc
        | some tss' =>
          simp only [accumTs, hoff, hacc', Option.some_inj] at hacc
          subst hacc
          have hc1 : (c1 : Int) = (cur : Int) + δ := by
            unfold offset_duration at hoff
            rw [if_neg (by omega)] at hoff
            obtain rfl := Option.some_inj.mp hoff
            omega
          have hrec := ih ids' c1 tss' (by simpa using hlen)
            (fun e he => hpos e (List.mem_cons_of_mem _ he)) hacc'
          simp only [List.zipWith, timeDeltasOf]
          rw [if_neg (by omega : ¬(c1 < cur)), hrec]
          have hδeq : ((c1 - cur : Nat) : Int) = δ := by omega
          rw [hδeq]

theorem zip_map_node_id :
    ∀ (ids tss : List Nat), tss.length = ids.length →
      (List.zipWith (fun id t => (⟨id, t⟩ : Sample)) ids tss).map Sample.node_id =
        ids := by
  intro ids
  induction ids with
  | nil => intro tss _; simp
  | cons id ids' ih =>
    intro tss h
    match tss with
    | [] => simp at h
    | t :: tss' =>
      simp only [List.zipWith, List.map_cons]
      rw [ih tss' (by simpa using h)]

theorem zip_map_ts :
    ∀ (tss ids : List Nat), tss.length ≤ ids.length →
      (List.zipWith (fun id t => (⟨id, t⟩ : Sample)) ids tss).map Sample.ts = tss := by
  intro tss
  induction tss with
  | nil => intro ids _; simp
  | cons t tss' ih =>
    intro ids h
    match ids with
    | [] => simp at h
    | id :: ids' =>
      simp only [List.zipWith, List.map_cons]
      rw [ih ids' (by simpa using h)]

theorem zip_sorted (ids tss : List Nat) (cur : Nat) (hlen : tss.length ≤ ids.length)
    (hchain : List.Chain' (· ≤ ·) (cur :: tss)) :
    List.Sorted Sample.le (List.zipWith (fun id t => (⟨id, t⟩ : Sample)) ids tss) := by
  have hts := zip_map_ts tss ids hlen
  have hpw : List.Pairwise (· ≤ ·) tss :=
    List.chain'_iff_pairwise.mp hchain.tail
  rw [← hts] at hpw
  show List.Pairwise (fun a b => Sample.ts a ≤ Sample.ts b)
    (List.zipWith (fun id t => (⟨id, t⟩ : Sample)) ids tss)
  exact List.pairwise_map.mp hpw

/-- Claim C1: for every conformant, canonically-encoded document that decodes
successfully, serializing the decoded profile reproduces the document exactly
(at the wire level, hence byte-for-byte under the canonical rendering): field
order fixed, delta encoding re-derived, optional node fields omitted exactly
when absent. -/
theorem round_trip (d : WireDoc) (hcanon : Canonical d) (p : Profile)
    (hdec : decodeProfile (toFields d) = .ok p) :
    p.serialize = some d ∧ (p.serialize).map renderDoc = some (renderDoc d) := by
  obtain ⟨hlen, hpos, hres⟩ := hcanon
  obtain ⟨tss, hacc, hchain⟩ := accumTs_of_nonneg d.timeDeltas 0 hpos
  obtain ⟨nodes', hrp, hdec'⟩ := decode_canonical d hlen tss hacc hres
  rw [hdec'] at hdec
  injection hdec with h
  have hlents : tss.length = d.timeDeltas.length := accumTs_length d.timeDeltas 0 tss hacc
  have hsorted : List.Sorted Sample.le
      (List.zipWith (fun id t => (⟨id, t⟩ : Sample)) d.samples tss) :=
    zip_sorted d.samples tss 0 (by omega) hchain
  have hsort_eq : List.insertionSort Sample.le
      (List.zipWith (fun id t => (⟨id, t⟩ : Sample)) d.samples tss) =
      List.zipWith (fun id t => (⟨id, t⟩ : Sample)) d.samples tss :=
    hsorted.insertionSort_eq
  have hnodes_eq : nodes'.map serializeNode = d.nodes := by
    rw [resolveParents_map serializeNode (fun n a => rfl) _ _ _ _ hrp,
      List.map_map]
    rw [List.map_congr_left (fun w _ => rfl : ∀ w ∈ d.nodes,
      (serializeNode ∘ nodeAsDecoded) w = id w)]
    exact List.map_id d.nodes
  have hids : (List.zipWith (fun id t => (⟨id, t⟩ : Sample)) d.samples tss).map
      Sample.node_id = d.samples :=
    zip_map_node_id d.samples tss (by omega)
  have hdeltas : timeDeltasOf 0
      (List.zipWith (fun id t => (⟨id, t⟩ : Sample)) d.samples tss) =
      some d.timeDeltas :=
    timeDeltasOf_accum d.timeDeltas d.samples 0 tss hlen hpos hacc
  have hser : p.serialize = some d := by
    rw [← h]
    show serializeProfileParts (nodes'.map serializeNode) d.startTime d.endTime
      (List.insertionSort Sample.le
        (List.zipWith (fun id t => (⟨id, t⟩ : Sample)) d.samples tss)) = some d
    rw [hsort_eq]
    simp only [serializeProfileParts, hdeltas]
    rw [hnodes_eq, hids]
  exact ⟨hser, by rw [hser]; rfl⟩

theorem chunksFrom_total (p : Profile) :
    ∀ (sls : List (List Sample)), (∀ sl ∈ sls, ProfileChunk.new p sl ≠ none) →
      chunksFrom p sls ≠ none := by
  intro sls
  induction sls with
  | nil => intro _; simp [chunksFrom]
  | cons sl rest ih =>
    intro hok
    simp only [chunksFrom]
    cases hnew : ProfileChunk.new p sl with
    | none => exact absurd hnew (hok sl (List.mem_cons_self _ _))
    | some c =>
      cases hrest : chunksFrom p rest with
      | none => exact absurd hrest (ih (fun s hs => hok s (List.mem_cons_of_mem _ hs)))
      | some cs => simp

theorem decoded_chunks_total (d : WireDoc)
    (hlen : d.samples.length = d.timeDeltas.length)
    (tss : List Nat) (hacc : accumTs 0 d.timeDeltas = some tss)
    (hres : ∀ w ∈ d.nodes, ∀ c ∈ childIds w, c ∈ nodeIds d)
    (p : Profile) (hdec : decodeProfile (toFields d) = .ok p)
    (hsamp : ∀ s ∈ p.samples, p.lookupNode s.node_id ≠ none) :
    ∀ (n : Nat) (sls : List (List Sample)), p.chunkSlices n = some sls →
      ∃ cs, p.chunks n = some cs := by
  obtain ⟨nodes', hrp, hdec'⟩ := decode_canonical d hlen tss hacc hres
  rw [hdec'] at hdec
  injection hdec with h
  have hpn : p.nodes = nodes' := by rw [← h]
  have hpi : p.node_index = builtIndexFrom 0 d.nodes := by rw [← h]
  have hlen' : nodes'.length = d.nodes.length := by
    rw [resolveParents_length _ _ _ nodes' hrp, List.length_map]
  have hpar : ∀ nd ∈ p.nodes, ∀ a, nd.parent_id = some a →
      p.lookupNode a ≠ none := by
    rw [hpn]
    intro nd hnd a ha
    rcases resolveParents_parent_src _ _ _ _ hrp nd hnd a ha with
      ⟨nd0, hnd0, ha0⟩ | ⟨c, hc⟩
    · obtain ⟨w, hw, heq⟩ := List.mem_map.mp hnd0
      rw [← heq] at ha0
      exact Option.noConfusion ha0
    · obtain ⟨w, hw, rfl, -⟩ := pairsFrom_mem d.nodes a c hc
      have hmem : w.id ∈ d.nodes.map WireNode.id := List.mem_map.mpr ⟨w, hw, rfl⟩
      cases hl : indexLookup (builtIndexFrom 0 d.nodes) w.id with
      | none => exact absurd hl (builtIndexFrom_mem d.nodes 0 _ hmem)
      | some pos =>
        obtain ⟨j, hj, hpos, -⟩ := builtIndexFrom_lookup d.nodes 0 w.id pos hl
        unfold Profile.lookupNode
        rw [hpi, hl]
        show p.nodes[pos]? ≠ none
        rw [hpn, List.getElem?_eq_getElem (by omega : pos < nodes'.length)]
        simp
  intro n sls hsl
  obtain ⟨hnpos, hkpos, hsls_eq⟩ := chunkSlices_eq hsl
  have hflat : sls.flatten = p.samples := by
    rw [hsls_eq]
    exact chunksGo_flatten _ _ _ (le_ceil_mul _ _ hkpos)
  have hall : ∀ sl ∈ sls, ProfileChunk.new p sl ≠ none := by
    intro sl hslm
    have hok : ∀ s ∈ sl, p.lookupNode s.node_id ≠ none := by
      intro s hs
      apply hsamp
      rw [← hflat]
      exact List.mem_flatten.mpr ⟨sl, hslm, hs⟩
    unfold ProfileChunk.new
    cases hb : buildIncluded p ∅ sl with
    | none => exact absurd hb (buildIncluded_total hpar sl ∅ hok)
    | some inc => simp
  unfold Profile.chunks
  rw [hsl]
  cases hcf : chunksFrom p sls with
  | none => exact absurd hcf (chunksFrom_total p sls hall)
  | some cs => exact ⟨cs, by rw [← hcf]⟩

/-- Claim C9: decode does not validate sample-to-node references — a canonical
document decodes successfully regardless of whether its sample ids name any
node; the integrity violation surfaces only at the first by-id lookup during
chunk-closure computation, where the unguarded index crashes (modelled
`none`); under the precondition that every sample's node id is present in the
index, that crash branch is unreachable and chunking always yields chunks. -/
theorem dangling_sample_reference (d : WireDoc)
    (hlen : d.samples.length = d.timeDeltas.length)
    (tss : List Nat) (hacc : accumTs 0 d.timeDeltas = some tss)
    (hres : ∀ w ∈ d.nodes, ∀ c ∈ childIds w, c ∈ nodeIds d) :
    ∃ p, decodeProfile (toFields d) = .ok p ∧
      (∀ (sl : List Sample) (s : Sample), s ∈ sl → p.lookupNode s.node_id = none →
        ProfileChunk.new p sl = none) ∧
      ((∀ s ∈ p.samples, p.lookupNode s.node_id ≠ none) →
        ∀ (n : Nat) (sls : List (List Sample)), p.chunkSlices n = some sls →
          ∃ cs, p.chunks n = some cs) := by
  obtain ⟨nodes', hrp, hdec'⟩ := decode_canonical d hlen tss hacc hres
  refine ⟨_, hdec', ?_, ?_⟩
  · intro sl s hs hnone
    unfold ProfileChunk.new
    rw [buildIncluded_crash sl ∅ s hs hnone (by intro x hx; simp at hx)]
    rfl
  · intro hsamp n sls hsl
    exact decoded_chunks_total d hlen tss hacc hres _ hdec' hsamp n sls hsl

/-- Witness for `dangling_sample_reference` at the dangling variant of the
spec's concrete scenario (samples referencing nonexistent node id 9). -/
theorem dangling_sample_reference_witness :
    ∃ p, decodeProfile (toFields danglingDoc) = .ok p ∧
      (∀ (sl : List Sample) (s : Sample), s ∈ sl → p.lookupNode s.node_id = none →
        ProfileChunk.new p sl = none) ∧
      ((∀ s ∈ p.samples, p.lookupNode s.node_id ≠ none) →
        ∀ (n : Nat) (sls : List (List Sample)), p.chunkSlices n = some sls →
          ∃ cs, p.chunks n = some cs) :=
  dangling_sample_reference danglingDoc (by decide) [100, 150, 175] (by decide)
    (by decide)

theorem nodeFieldsLoop_known :
    ∀ (fields : List NodeField) (acc : NodeAcc), fields.all isKnownKey = true →
      ∃ acc', nodeFieldsLoop acc fields = .ok acc' ∧
        acc'.id.isSome = (acc.id.isSome || fields.any isIdKey) ∧
        acc'.call_frame.isSome = (acc.call_frame.isSome || fields.any isCallFrameKey) ∧
        acc'.hit_count.isSome = (acc.hit_count.isSome || fields.any isHitCountKey) := by
  intro fields
  induction fields with
  | nil => intro acc _; exact ⟨acc, rfl, by simp, by simp, by simp⟩
  | cons f rest ih =>
    intro acc hknown
    rw [List.all_cons, Bool.and_eq_true] at hknown
    cases f with
    | id v =>
      obtain ⟨acc', hloop, h1, h2, h3⟩ := ih { acc with id := some v } hknown.2
      exact ⟨acc', hloop, by simp [h1, isIdKey], by simpa [isIdKey] using h2,
        by simpa [isIdKey] using h3⟩
    | callFrame v =>
      obtain ⟨acc', hloop, h1, h2, h3⟩ := ih { acc with call_frame := some v } hknown.2
      exact ⟨acc', hloop, by simpa [isCallFrameKey] using h1,
        by simp [h2, isCallFrameKey], by simpa [isCallFrameKey] using h3⟩
    | hitCount v =>
      obtain ⟨acc', hloop, h1, h2, h3⟩ := ih { acc with hit_count := some v } hknown.2
      exact ⟨acc', hloop, by simpa [isHitCountKey] using h1,
        by simpa [isHitCountKey] using h2, by simp [h3, isHitCountKey]⟩
    | children v =>
      obtain ⟨acc', hloop, h1, h2, h3⟩ := ih { acc with children := some v } hknown.2
      exact ⟨acc', hloop, by simpa [isIdKey] using h1,
        by simpa [isCallFrameKey] using h2, by simpa [isHitCountKey] using h3⟩
    | deoptReason v =>
      obtain ⟨acc', hloop, h1, h2, h3⟩ := ih { acc with deopt_reason := some v } hknown.2
      exact ⟨acc', hloop, by simpa [isIdKey] using h1,
        by simpa [isCallFrameKey] using h2, by simpa [isHitCountKey] using h3⟩
    | positionTicks v =>
      obtain ⟨acc', hloop, h1, h2, h3⟩ := ih { acc with position_ticks := some v } hknown.2
      exact ⟨acc', hloop, by simpa [isIdKey] using h1,
        by simpa [isCallFrameKey] using h2, by simpa [isHitCountKey] using h3⟩
    | unknownKey name => simp [isKnownKey] at hknown

theorem nodeFieldsLoop_unknown :
    ∀ (pre : List NodeField) (acc : NodeAcc) (name : String) (post : List NodeField),
      pre.all isKnownKey = true →
      nodeFieldsLoop acc (pre ++ .unknownKey name :: post) =
        .error (.unknownField name) := by
  intro pre
  induction pre with
  | nil => intro acc name post _; rfl
  | cons f rest ih =>
    intro acc name post hknown
    rw [List.all_cons, Bool.and_eq_true] at hknown
    cases f with
    | id v => exact ih { acc with id := some v } name post hknown.2
    | callFrame v => exact ih { acc with call_frame := some v } name post hknown.2
    | hitCount v => exact ih { acc with hit_count := some v } name post hknown.2
    | children v => exact ih { acc with children := some v } name post hknown.2
    | deoptReason v => exact ih { acc with deopt_reason := some v } name post hknown.2
    | positionTicks v => exact ih { acc with position_ticks := some v } name post hknown.2
    | unknownKey nm => simp [isKnownKey] at hknown

/-- Claim C8: decoding a node object with only closed-schema keys but missing
`hitCount` fails with a missing-field error naming `hitCount` (likewise `id`
and `callFrame`, in the source's check order); any key outside the closed
schema fails with an unknown-field error naming that key; a failing node also
fails the surrounding node-sequence pass, so no partial profile state
survives. -/
theorem node_decode_errors :
    (∀ fields : List NodeField, fields.all isKnownKey = true →
        fields.any isIdKey = true → fields.any isCallFrameKey = true →
        fields.any isHitCountKey = false →
        decodeNode fields = .error (.missingField "hitCount")) ∧
      (∀ fields : List NodeField, fields.all isKnownKey = true →
        fields.any isIdKey = false →
        decodeNode fields = .error (.missingField "id")) ∧
      (∀ fields : List NodeField, fields.all isKnownKey = true →
        fields.any isIdKey = true → fields.any isCallFrameKey = false →
        decodeNode fields = .error (.missingField "callFrame")) ∧
      (∀ (pre : List NodeField) (name : String) (post : List NodeField),
        pre.all isKnownKey = true →
        decodeNode (pre ++ .unknownKey name :: post) = .error (.unknownField name)) ∧
      ∀ (st : DecState) (idx : Nat) (nf : List NodeField)
        (rest : List (List NodeField)) (e : DecodeError),
        decodeNode nf = .error e → nodesSeqPass st idx (nf :: rest) = .error e := by
  refine ⟨?_, ?_, ?_, ?_, ?_⟩
  · intro fields hknown hid hcf hhc
    obtain ⟨acc', hloop, h1, h2, h3⟩ := nodeFieldsLoop_known fields {} hknown
    rw [hid] at h1
    rw [hcf] at h2
    rw [hhc] at h3
    simp only [Bool.or_true, Bool.or_false] at h1 h2 h3
    obtain ⟨v1, hv1⟩ := Option.isSome_iff_exists.mp (by simpa using h1)
    obtain ⟨v2, hv2⟩ := Option.isSome_iff_exists.mp (by simpa using h2)
    have hv3 : acc'.hit_count = none := by
      cases hc : acc'.hit_count with
      | none => rfl
      | some v => rw [hc] at h3; simp at h3
    simp only [decodeNode, hloop, hv1, hv2, hv3]
  · intro fields hknown hid
    obtain ⟨acc', hloop, h1, -, -⟩ := nodeFieldsLoop_known fields {} hknown
    rw [hid] at h1
    have hv1 : acc'.id = none := by
      cases hc : acc'.id with
      | none => rfl
      | some v => rw [hc] at h1; simp at h1
    simp only [decodeNode, hloop, hv1]
  · intro fields hknown hid hcf
    obtain ⟨acc', hloop, h1, h2, -⟩ := nodeFieldsLoop_known fields {} hknown
    rw [hid] at h1
    rw [hcf] at h2
    obtain ⟨v1, hv1⟩ := Option.isSome_iff_exists.mp (by simpa using h1)
    have hv2 : acc'.call_frame = none := by
      cases hc : acc'.call_frame with
      | none => rfl
      | some v => rw [hc] at h2; simp at h2
    simp only [decodeNode, hloop, hv1, hv2]
  · intro pre name post hknown
    simp only [decodeNode, nodeFieldsLoop_unknown pre {} name post hknown]
  · intro st idx nf rest e hdec
    simp only [nodesSeqPass, hdec]

/-- Witness for `node_decode_errors` at concrete node objects. -/
theorem node_decode_errors_witness :
    decodeNode [NodeField.id 7, NodeField.callFrame "cf"] =
        .error (.missingField "hitCount") ∧
      decodeNode [NodeField.callFrame "cf", NodeField.hitCount 3] =
        .error (.missingField "id") ∧
      decodeNode [NodeField.id 7, NodeField.hitCount 3] =
        .error (.missingField "callFrame") ∧
      decodeNode [NodeField.id 7, NodeField.unknownKey "foo", NodeField.hitCount 3] =
        .error (.unknownField "foo") ∧
      nodesSeqPass {} 0 [[NodeField.id 7, NodeField.callFrame "cf"]] =
        .error (.missingField "hitCount") :=
  ⟨node_decode_errors.1 _ (by decide) (by decide) (by decide) (by decide),
    node_decode_errors.2.1 _ (by decide) (by decide),
    node_decode_errors.2.2.1 _ (by decide) (by decide) (by decide),
    node_decode_errors.2.2.2.1 [NodeField.id 7] "foo" [NodeField.hitCount 3] (by decide),
    node_decode_errors.2.2.2.2 {} 0 _ [] _
      (node_decode_errors.1 _ (by decide) (by decide) (by decide) (by decide))⟩

/-- Witness for `round_trip` at the spec's concrete scenario. -/
theorem round_trip_witness :
    exampleProfile.serialize = some exampleDoc ∧
      (exampleProfile.serialize).map renderDoc = some (renderDoc exampleDoc) :=
  round_trip exampleDoc (by decide) exampleProfile (by decide)

/-- Witness for `parent_derivation` at the spec's concrete scenario. -/
theorem parent_derivation_witness :
    (∀ N ∈ exampleDoc.nodes, ∀ C ∈ childIds N,
        (∃ nc ∈ exampleProfile.nodes, nc.id = C) ∧
        ∀ nc ∈ exampleProfile.nodes, nc.id = C → nc.parent_id = some N.id) ∧
      ∀ nc ∈ exampleProfile.nodes,
        (nc.parent_id = none ↔ ∀ N ∈ exampleDoc.nodes, nc.id ∉ childIds N) :=
  parent_derivation exampleDoc (by decide) [100, 150, 175] (by decide) (by decide)
    (by decide) (by decide) exampleProfile (by decide)

end V8
